import Mathlib

/-!
# The xmlsec name-keyed map (`src/map.c`)

A shallow embedding of the map container of `src/map.c` and the properties its
specification states about it.

Modelling conventions.

* A C string is identified with its contents, a list of bytes; a `xmlChar*` is
  an `Option` of such a list, `none` being `NULL`.
* A `xmlSecObjPtr` is an `Option Nat`: `NULL` or the handle of an object.
* `map->data` is `NULL` (`none`) or an allocated block, the list of its slots.
  The fields `size` and `maxSize` are kept apart from the block, as in the C
  structure; that the block has `maxSize` slots is a property of a state, not
  of the type.
* Every function that touches memory returns an `Option`; `none` stands for
  undefined behaviour (a load or store outside the allocated block).
* The `xmlSecAssert`/`xmlSecAssert2` checks report and return. The header
  that defines the two macros is not among the sources; that they return is
  read off their use in `map.c`, where the second argument of `xmlSecAssert2`
  is always the failure result of the enclosing function.
* `xmlStrEqual`, `xmlStrdup`, `xmlRealloc`, `memmove` and `memset` are library
  functions, modelled after their documentation; the object duplication
  capability `xmlSecObjDuplicate` is a parameter.
* The allocator is an oracle passed as an argument: `xmlRealloc` either fails
  or returns a block whose fresh slots hold indeterminate contents, `xmlStrdup`
  either fails (returns `NULL`) or returns a copy.
* The calls of `xmlSecObjDelete` made by an operation are returned as the list
  of the handles destroyed, in order.
* Releasing a key (`xmlFree`) or an object does not change a slot: the slot
  keeps its contents, as the memory keeps the pointer. The embedding does not
  track released memory, so where the program would read or release a released
  pointer the embedding still computes a result; the list of destroyed handles
  shows such a second release.
* `size_t` and `int` are unbounded naturals and integers: the development is
  about maps whose sizes stay in the range of `int`.
-/

namespace XmlSec

/-- A byte of a string (`xmlChar`). -/
abbrev xmlChar := Nat

/-- A pointer to a string: `NULL` or the bytes before the terminator. -/
abbrev xmlCharPtr := Option (List xmlChar)

/-- A pointer to an object: `NULL` or an object handle. -/
abbrev xmlSecObjPtr := Option Nat

/-- One slot of the map (`struct _xmlSecMapItem`). -/
structure xmlSecMapItem where
  name : xmlCharPtr
  data : xmlSecObjPtr
deriving DecidableEq, Repr

/-- The map object (`xmlSecMap`): backing block, live count, allocated count. -/
structure xmlSecMap where
  data : Option (List xmlSecMapItem)
  size : Nat
  maxSize : Nat
deriving DecidableEq, Repr

/-- A zeroed slot: what `memset(..., 0, ...)` and the two `NULL` stores leave. -/
def zeroItem : xmlSecMapItem := { name := none, data := none }

/-- String comparison of libxml2: pointers that are both `NULL` are equal, a
`NULL` differs from any string, two strings are equal when their bytes are. -/
def xmlStrEqual (str1 str2 : xmlCharPtr) : Bool :=
  match str1, str2 with
  | none, none => true
  | some a, some b => decide (a = b)
  | _, _ => false

/-- String copy of libxml2: `NULL` for `NULL` and when the allocation fails
(`ok = false`), a copy of the bytes otherwise. -/
def xmlStrdup (ok : Bool) (cur : xmlCharPtr) : xmlCharPtr :=
  if ok then cur else none

/-- Block reallocation: `none` when the allocator fails; otherwise a block of
`n` slots that keeps the old contents and whose fresh slots hold whatever the
allocator left there (`fresh j` for slot `j`). -/
def xmlRealloc (fresh : Option (Nat → xmlSecMapItem)) (old : Option (List xmlSecMapItem))
    (n : Nat) : Option (List xmlSecMapItem) :=
  match fresh with
  | none => none
  | some g =>
    let blk := old.getD []
    some (blk.take n ++ (List.range (n - blk.length)).map (fun j => g (blk.length + j)))

/-- Library `memmove` on slots: `n` slots starting at `src` are copied to `dst`;
undefined when either range leaves the block. -/
def memmove (block : List xmlSecMapItem) (dst src n : Nat) : Option (List xmlSecMapItem) :=
  if src + n ≤ block.length ∧ dst + n ≤ block.length then
    some (block.take dst ++ (block.drop src).take n ++ block.drop (dst + n))
  else none

/-- Library `memset` with zero over the first `n` slots; undefined when the
block is shorter. -/
def memset (block : List xmlSecMapItem) (n : Nat) : Option (List xmlSecMapItem) :=
  if n ≤ block.length then some (List.replicate n zeroItem ++ block.drop n) else none

/-- The loop of `xmlSecMapFindItem` (lines 312-319), `n` iterations left from
index `i`. -/
def xmlSecMapFindItem.loop (map : xmlSecMap) (name : List xmlChar) : Nat → Nat → Option Int
  | 0, _ => some (-1)
  | n + 1, i =>
    match map.data with
    | none => some (-1)
    | some block =>
      match block[i]? with
      | none => none
      | some item =>
        match item.name with
        | none => some (-1)
        | some s =>
          if xmlStrEqual (some s) (some name) then some (Int.ofNat i)
          else xmlSecMapFindItem.loop map name n (i + 1)

/-- Index of the first live entry named `name`, or `-1` (lines 305-321). -/
def xmlSecMapFindItem (map : xmlSecMap) (name : xmlCharPtr) : Option Int :=
  match name with
  | none => some (-1)
  | some k => xmlSecMapFindItem.loop map k map.size 0

/-- Value stored under `name`, or `NULL` (lines 75-92). -/
def xmlSecMapGet (map : xmlSecMap) (name : xmlCharPtr) : Option xmlSecObjPtr :=
  match name with
  | none => some none
  | some k =>
    match xmlSecMapFindItem map (some k) with
    | none => none
    | some i =>
      if i < 0 then some none
      else
        match map.data with
        | none => some none
        | some block =>
          match block[i.toNat]? with
          | none => none
          | some item => some item.data

/-- Growth of the backing block (lines 323-346): result code and map. -/
def xmlSecMapReallocate (fresh : Option (Nat → xmlSecMapItem)) (map : xmlSecMap)
    (delta : Nat) : Int × xmlSecMap :=
  if map.size + delta < map.maxSize then (0, map)
  else
    let size := 4 * (map.size + delta) / 3 + 1
    match xmlRealloc fresh map.data size with
    | none => (-1, map)
    | some p => (0, { map with data := some p, maxSize := size })

/-- Result of `xmlSecMapSet` and `xmlSecMapDuplicator`: return code, map after
the call, handles passed to `xmlSecObjDelete`. -/
structure Outcome where
  ret : Int
  map : xmlSecMap
  deleted : List Nat
deriving DecidableEq, Repr

/-- Store `data` under `name` (lines 94-126). -/
def xmlSecMapSet (fresh : Option (Nat → xmlSecMapItem)) (dupOk : Bool) (map : xmlSecMap)
    (name : xmlCharPtr) (data : xmlSecObjPtr) : Option Outcome :=
  match name with
  | none => some ⟨-1, map, []⟩
  | some k =>
    match xmlSecMapFindItem map (some k) with
    | none => none
    | some ret =>
      if ret ≥ 0 then
        match map.data with
        | none => some ⟨-1, map, []⟩
        | some block =>
          match block[ret.toNat]? with
          | none => none
          | some item =>
            some ⟨0, { map with data := some (block.set ret.toNat { item with data := data }) },
              item.data.toList⟩
      else
        let r := xmlSecMapReallocate fresh map 1
        if r.1 < 0 then some ⟨-1, r.2, []⟩
        else
          match r.2.data with
          | none => some ⟨-1, r.2, []⟩
          | some block =>
            if r.2.maxSize ≥ r.2.size + 1 then
              if r.2.size < block.length then
                some ⟨0, { r.2 with
                            data := some (block.set r.2.size
                              { name := xmlStrdup dupOk (some k), data := data }),
                            size := r.2.size + 1 }, []⟩
              else none
            else some ⟨-1, r.2, []⟩

/-- Remove the entry named `name` (lines 128-159): map after the call and the
handles destroyed. -/
def xmlSecMapRemove (map : xmlSecMap) (name : xmlCharPtr) : Option (xmlSecMap × List Nat) :=
  match name with
  | none => some (map, [])
  | some k =>
    match xmlSecMapFindItem map (some k) with
    | none => none
    | some i =>
      if i < 0 then some (map, [])
      else
        match map.data with
        | none => some (map, [])
        | some block =>
          match block[i.toNat]? with
          | none => none
          | some item =>
            let moved :=
              if i + 1 < (map.size : Int) then
                memmove block i.toNat (i.toNat + 1) (map.size - i.toNat - 1)
              else some block
            match moved with
            | none => none
            | some block1 =>
              if map.size < block1.length then
                some ({ map with data := some (block1.set map.size zeroItem),
                                 size := map.size - 1 }, item.data.toList)
              else none

/-- The loop of `xmlSecMapEmpty` (lines 167-177): `some (true, del)` when it
ran to the end, `some (false, del)` when an assertion returned from the
function; `del` are the handles destroyed so far. The slots are not changed by
the loop: after an assertion exit the entries already released are still live
and still hold their (released) key and value. -/
def xmlSecMapEmpty.loop (map : xmlSecMap) : Nat → Nat → List Nat → Option (Bool × List Nat)
  | 0, _, del => some (true, del)
  | n + 1, i, del =>
    match map.data with
    | none => some (false, del)
    | some block =>
      match block[i]? with
      | none => none
      | some item =>
        match item.name with
        | none => some (false, del)
        | some _ => xmlSecMapEmpty.loop map n (i + 1) (del ++ item.data.toList)

/-- Destroy every live entry and zero the block (lines 161-183). -/
def xmlSecMapEmpty (map : xmlSecMap) : Option (xmlSecMap × List Nat) :=
  match xmlSecMapEmpty.loop map map.size 0 [] with
  | none => none
  | some (false, del) => some (map, del)
  | some (true, del) =>
    if map.maxSize > 0 then
      match map.data with
      | none => some (map, del)
      | some block =>
        match memset block map.maxSize with
        | none => none
        | some z => some ({ map with data := some z, size := 0 }, del)
    else some ({ map with size := 0 }, del)

/-- Number of live entries (lines 185-190). -/
def xmlSecMapGetSize (map : xmlSecMap) : Nat := map.size

/-- Value at position `pos`, `NULL` beyond the live entries (lines 192-202). -/
def xmlSecMapGetData (map : xmlSecMap) (pos : Nat) : Option xmlSecObjPtr :=
  if pos < map.size then
    match map.data with
    | none => some none
    | some block =>
      match block[pos]? with
      | none => none
      | some item => some item.data
  else some none

/-- Key at position `pos`, `NULL` beyond the live entries (lines 204-214). -/
def xmlSecMapGetName (map : xmlSecMap) (pos : Nat) : Option xmlCharPtr :=
  if pos < map.size then
    match map.data with
    | none => some none
    | some block =>
      match block[pos]? with
      | none => none
      | some item => some item.name
  else some none

/-- The constructed map (lines 222-234): no block, `size = maxSize = 0`. -/
def xmlSecMapConstructor : xmlSecMap := { data := none, size := 0, maxSize := 0 }

/-- The copy loop of `xmlSecMapDuplicator` (lines 259-262). -/
def xmlSecMapDuplicator.loop (dupOk : Nat → Bool) (objDup : xmlSecObjPtr → xmlSecObjPtr)
    (src : Option (List xmlSecMapItem)) : Nat → Nat → List xmlSecMapItem →
    Option (List xmlSecMapItem)
  | 0, _, dst => some dst
  | n + 1, i, dst =>
    match src with
    | none => none
    | some sblock =>
      match sblock[i]? with
      | none => none
      | some item =>
        if i < dst.length then
          xmlSecMapDuplicator.loop dupOk objDup src n (i + 1)
            (dst.set i { name := xmlStrdup (dupOk i) item.name, data := objDup item.data })
        else none

/-- Deep copy of `src` into `dst` (lines 236-265); `objDup` is the object
duplication capability, `dupOk i` tells whether the `i`-th key copy succeeds. -/
def xmlSecMapDuplicator (fresh : Option (Nat → xmlSecMapItem)) (dupOk : Nat → Bool)
    (objDup : xmlSecObjPtr → xmlSecObjPtr) (dst src : xmlSecMap) : Option Outcome :=
  match xmlSecMapEmpty dst with
  | none => none
  | some (d0, del) =>
    let r := xmlSecMapReallocate fresh d0 src.size
    if r.1 < 0 then some ⟨-1, r.2, del⟩
    else
      match r.2.data with
      | none => some ⟨-1, r.2, del⟩
      | some block =>
        if r.2.maxSize ≥ src.size then
          match xmlSecMapDuplicator.loop dupOk objDup src.data src.size 0 block with
          | none => none
          | some block1 => some ⟨0, { r.2 with data := some block1, size := src.size }, del⟩
        else some ⟨-1, r.2, del⟩

/-- Release everything the map owns (lines 267-281). -/
def xmlSecMapDestructor (map : xmlSecMap) : Option (xmlSecMap × List Nat) :=
  match xmlSecMapEmpty map with
  | none => none
  | some (m, del) => some ({ m with data := none, size := 0, maxSize := 0 }, del)

/-- One call on a map, together with what the allocator (and, for a copy, the
object duplication capability) does during the call. -/
inductive Call where
  | set (fresh : Option (Nat → xmlSecMapItem)) (dupOk : Bool) (name : xmlCharPtr)
      (data : xmlSecObjPtr)
  | remove (name : xmlCharPtr)
  | empty
  | duplicate (fresh : Option (Nat → xmlSecMapItem)) (dupOk : Nat → Bool)
      (objDup : xmlSecObjPtr → xmlSecObjPtr) (src : xmlSecMap)
  | destroy

/-- A map with the history of its values: `deleted` lists every handle passed
to `xmlSecObjDelete` so far, `taken` every non-null handle a successful
`xmlSecMapSet` took over. -/
structure World where
  map : xmlSecMap
  deleted : List Nat
  taken : List Nat
deriving DecidableEq, Repr

/-- The world after construction. -/
def World.init : World := { map := xmlSecMapConstructor, deleted := [], taken := [] }

/-- Effect of one call on the world; `none` when the call has undefined
behaviour. -/
def step (c : Call) (w : World) : Option World :=
  match c with
  | .set fresh dupOk name data =>
    (xmlSecMapSet fresh dupOk w.map name data).map fun (o : Outcome) =>
      { w with map := o.map, deleted := w.deleted ++ o.deleted,
               taken := if o.ret = (0 : Int) then w.taken ++ data.toList else w.taken }
  | .remove name =>
    (xmlSecMapRemove w.map name).map fun r =>
      { w with map := r.1, deleted := w.deleted ++ r.2 }
  | .empty =>
    (xmlSecMapEmpty w.map).map fun r =>
      { w with map := r.1, deleted := w.deleted ++ r.2 }
  | .duplicate fresh dupOk objDup src =>
    (xmlSecMapDuplicator fresh dupOk objDup w.map src).map fun (o : Outcome) =>
      { w with map := o.map, deleted := w.deleted ++ o.deleted }
  | .destroy =>
    (xmlSecMapDestructor w.map).map fun r =>
      { w with map := r.1, deleted := w.deleted ++ r.2 }

/-- Effect of a sequence of calls, first call first. -/
def run : List Call → World → Option World
  | [], w => some w
  | c :: cs, w => (step c w).bind (run cs)

/-- The calls `xmlSecMapSet`, `xmlSecMapRemove` and `xmlSecMapEmpty`. -/
def Call.isBasic : Call → Bool
  | .set _ _ _ _ => true
  | .remove _ => true
  | .empty => true
  | _ => false

/-- The live entries of a map: the slots at indices below `size`. -/
def live (map : xmlSecMap) : List xmlSecMapItem := (map.data.getD []).take map.size

/-- The block of a map, empty for `NULL`. -/
def slots (map : xmlSecMap) : List xmlSecMapItem := map.data.getD []

/-- Memory validity of a map state: the block has `maxSize` slots and the live
count does not exceed it. -/
def Valid (map : xmlSecMap) : Prop :=
  (slots map).length = map.maxSize ∧ map.size ≤ map.maxSize

/-- Well-formed map: valid memory and every live entry has a non-null key. -/
def WellFormed (map : xmlSecMap) : Prop :=
  Valid map ∧ ∀ it ∈ live map, it.name ≠ none

/-- The keys of the live entries are pairwise distinct. -/
def UniqueKeys (map : xmlSecMap) : Prop := ((live map).map (·.name)).Nodup

/-- The spare slot: a map with a block has room for one more entry. -/
def Spare (map : xmlSecMap) : Prop :=
  map.size < map.maxSize ∨ (map.size = 0 ∧ map.maxSize = 0)

instance (map : xmlSecMap) : Decidable (Valid map) := by
  unfold Valid; infer_instance

instance (map : xmlSecMap) : Decidable (WellFormed map) := by
  unfold WellFormed; infer_instance

instance (map : xmlSecMap) : Decidable (UniqueKeys map) := by
  unfold UniqueKeys; infer_instance

instance (map : xmlSecMap) : Decidable (Spare map) := by
  unfold Spare; infer_instance

/-- Position of the first name equal to `k` in a list of names, the search
stopping (without result) at a `NULL` name. -/
def firstIdx (k : List xmlChar) : List xmlCharPtr → Option Nat
  | [] => none
  | none :: _ => none
  | some s :: rest => if s = k then some 0 else (firstIdx k rest).map (· + 1)

/-- The keys a search can see: the names before the first `NULL` name. -/
def seen : List xmlCharPtr → List (List xmlChar)
  | [] => []
  | none :: _ => []
  | some s :: rest => s :: seen rest

/-- The `int` a search returns: the index, or `-1`. -/
def idxToInt : Option Nat → Int
  | none => -1
  | some j => Int.ofNat j

/-- What every map built through the interface satisfies: the block has
`maxSize` slots, there is a spare slot, and the keys a search can see are
pairwise distinct. -/
def Inv (map : xmlSecMap) : Prop :=
  (slots map).length = map.maxSize ∧ Spare map ∧ (seen ((live map).map (·.name))).Nodup

/-- An allocator that succeeds and hands out zeroed slots. -/
def zeroFill : Option (Nat → xmlSecMapItem) := some (fun _ => zeroItem)

/-- The keys "a", "b" and "c" of the examples. -/
def keyA : List xmlChar := [97]

/-- The key "b". -/
def keyB : List xmlChar := [98]

/-- The key "c". -/
def keyC : List xmlChar := [99]

/-- The calls `set(m,"a",1); set(m,"b",2); set(m,"c",3)` with every allocation
succeeding. -/
def callsABC : List Call :=
  [.set zeroFill true (some keyA) (some 1), .set zeroFill true (some keyB) (some 2),
   .set zeroFill true (some keyC) (some 3)]

/-- The world the calls `callsABC` lead to from the constructed map. -/
def worldABC : World :=
  { map := { data := some [⟨some keyA, some 1⟩, ⟨some keyB, some 2⟩, ⟨some keyC, some 3⟩,
                           zeroItem, zeroItem],
             size := 3, maxSize := 5 },
    deleted := [], taken := [1, 2, 3] }

/-- The map after `set(m,"a",1); set(m,"b",2)` on the constructed map, the
allocator handing out zeroed slots. -/
def mapAB : xmlSecMap :=
  { data := some [⟨some keyA, some 1⟩, ⟨some keyB, some 2⟩, zeroItem], size := 2, maxSize := 3 }

/-- The key copies of a call succeed (only `xmlSecMapSet` copies a key among
the basic calls). -/
def Call.copyOk : Call → Bool
  | .set _ dupOk _ _ => dupOk
  | _ => true

/-- The capacity invariant: the block has `maxSize` slots and a map with a
block keeps a spare slot (`size < maxSize`); without a block both are 0. -/
def Cap (map : xmlSecMap) : Prop := (slots map).length = map.maxSize ∧ Spare map

instance (map : xmlSecMap) : Decidable (Cap map) := by
  unfold Cap; infer_instance

/-- The calls `xmlSecMapSet`, `xmlSecMapRemove`, `xmlSecMapEmpty` and
`xmlSecMapDuplicator` (every call but the destructor). -/
def Call.isMutator : Call → Bool
  | .destroy => false
  | _ => true

/-- The calls that insert the given keys and values in order, every allocation
succeeding: each element carries what the allocator leaves in fresh slots, the
key and the value. -/
def setAll (kvs : List ((Nat → xmlSecMapItem) × List xmlChar × xmlSecObjPtr)) : List Call :=
  kvs.map fun e => Call.set (some e.1) true (some e.2.1) e.2.2

/-- The entry a successful insertion of an element of `setAll` stores. -/
def entryOf (e : (Nat → xmlSecMapItem) × List xmlChar × xmlSecObjPtr) : xmlSecMapItem :=
  { name := some e.2.1, data := e.2.2 }

/-- Four insertions "a", "b", "c", "d" with values 1 to 4, the allocator
handing out zeroed slots: the capacity grows at the first, second and third. -/
def kvs4 : List ((Nat → xmlSecMapItem) × List xmlChar × xmlSecObjPtr) :=
  [(fun _ => zeroItem, keyA, some 1), (fun _ => zeroItem, keyB, some 2),
   (fun _ => zeroItem, keyC, some 3), (fun _ => zeroItem, [100], some 4)]

/-- An object duplication capability for the examples: the copy of object `h`
is object `h + 10`. -/
def dupPlus10 : xmlSecObjPtr → xmlSecObjPtr := fun o => o.map (· + 10)

/-- A sequence with every kind of call: three insertions, a removal, the
destructor, an insertion whose block allocation fails, a copy of `mapAB`, an
emptying and a last insertion. -/
def callsMixed : List Call :=
  callsABC ++ [.remove (some keyB), .destroy, .set none true (some keyA) (some 4),
    .duplicate zeroFill (fun _ => true) dupPlus10 mapAB, .empty,
    .set zeroFill true (some keyC) (some 5)]

/-- The world the calls `callsMixed` lead to. -/
def worldMixed : World :=
  { map := { data := some [⟨some keyC, some 5⟩, zeroItem, zeroItem], size := 1, maxSize := 3 },
    deleted := [2, 1, 3, 11, 12], taken := [1, 2, 3, 5] }

/-- A sequence without the destructor: three insertions, a removal, a copy of
`mapAB` and an insertion. -/
def callsMutators : List Call :=
  callsABC ++ [.remove (some keyB), .duplicate zeroFill (fun _ => true) dupPlus10 mapAB,
    .set zeroFill true (some keyC) (some 5)]

/-- The world the calls `callsMutators` lead to. -/
def worldMutators : World :=
  { map := { data := some [⟨some keyA, some 11⟩, ⟨some keyB, some 12⟩, ⟨some keyC, some 5⟩,
                           zeroItem, zeroItem],
             size := 3, maxSize := 5 },
    deleted := [2, 1, 3], taken := [1, 2, 3, 5] }

/-- The map `xmlSecMapSet` leaves on the constructed map when the key copy of
"a" fails: one live entry with a `NULL` key and the value 1. -/
def nullKeyMap : xmlSecMap :=
  { data := some [⟨none, some 1⟩, zeroItem], size := 1, maxSize := 2 }

/-- The map after `set a=1; remove a` on the constructed map: no live entry,
slot 0 still holding the removed entry. -/
def staleMap : xmlSecMap :=
  { data := some [⟨some keyA, some 1⟩, zeroItem], size := 0, maxSize := 2 }

/-- An allocator that succeeds and leaves in fresh slot `j` the key `[j]` and
the handle `j` (contents that are not zero). -/
def junkFill : Option (Nat → xmlSecMapItem) := some (fun j => ⟨some [j], some j⟩)

end XmlSec

/-! ## Lemmas about the lookup and the operations -/

namespace XmlSec

theorem idxToInt_neg (o : Option Nat) : idxToInt o < 0 ↔ o = none := by
  cases o with
  | none => simp [idxToInt]
  | some j => simp [idxToInt]

theorem findLoop_eq (m : xmlSecMap) (k : List xmlChar) (block : List xmlSecMapItem)
    (h : m.data = some block) :
    ∀ n i, i + n ≤ block.length →
      xmlSecMapFindItem.loop m k n i
        = some (idxToInt ((firstIdx k (((block.drop i).take n).map (·.name))).map (· + i))) := by
  intro n
  induction n with
  | zero => intro i _; simp [xmlSecMapFindItem.loop, firstIdx, idxToInt]
  | succ n ih =>
    intro i hi
    have hlt : i < block.length := by omega
    have hd : block.drop i = block[i] :: block.drop (i + 1) := List.drop_eq_getElem_cons hlt
    rw [xmlSecMapFindItem.loop, h]
    simp only [List.getElem?_eq_getElem hlt, hd, List.take_succ_cons, List.map_cons]
    cases hn : block[i].name with
    | none => simp [firstIdx, idxToInt]
    | some s =>
      by_cases hs : s = k
      · simp [firstIdx, hs, xmlStrEqual, idxToInt]
      · rw [ih (i + 1) (by omega)]
        simp only [firstIdx, hs, xmlStrEqual, if_false, decide_False, Option.map_map]
        cases firstIdx k (List.map (fun x => x.name) (List.take n (List.drop (i + 1) block))) with
        | none => simp
        | some j => simp [idxToInt]; omega


theorem slots_of_data {m : xmlSecMap} {block : List xmlSecMapItem} (h : m.data = some block) :
    slots m = block := by simp [slots, h]

theorem live_eq_take (m : xmlSecMap) : live m = (slots m).take m.size := rfl

theorem live_length {m : xmlSecMap} (hv : Valid m) : (live m).length = m.size := by
  rw [live_eq_take, List.length_take, hv.1]; exact Nat.min_eq_left hv.2

theorem findItem_eq (m : xmlSecMap) (k : List xmlChar) (hv : Valid m) :
    xmlSecMapFindItem m (some k)
      = some (idxToInt (firstIdx k ((live m).map (·.name)))) := by
  cases hd : m.data with
  | none =>
    have h0 : m.size = 0 := by
      have := hv.1; have := hv.2; simp [slots, hd] at *; omega
    simp [xmlSecMapFindItem, h0, xmlSecMapFindItem.loop, live, firstIdx, idxToInt]
  | some block =>
    have hl : 0 + m.size ≤ block.length := by
      have := hv.1; have := hv.2; simp [slots, hd] at *; omega
    show xmlSecMapFindItem.loop m k m.size 0 = _
    rw [findLoop_eq m k block hd m.size 0 hl]
    simp [live, hd]

theorem firstIdx_none_of_forall (k : List xmlChar) :
    ∀ ns : List xmlCharPtr, (∀ n ∈ ns, n ≠ some k) → firstIdx k ns = none
  | [], _ => rfl
  | none :: _, _ => rfl
  | some s :: rest, h => by
    have hs : s ≠ k := fun e => h (some s) (List.mem_cons_self _ _) (by rw [e])
    have := firstIdx_none_of_forall k rest (fun n hn => h n (List.mem_cons_of_mem _ hn))
    simp [firstIdx, hs, this]

theorem firstIdx_some (k : List xmlChar) :
    ∀ (ns : List xmlCharPtr) (j : Nat), firstIdx k ns = some j →
      ns[j]? = some (some k) ∧ ∀ t, t < j → ∃ s, ns[t]? = some (some s) ∧ s ≠ k
  | [], j, h => by simp [firstIdx] at h
  | none :: _, j, h => by simp [firstIdx] at h
  | some s :: rest, j, h => by
    by_cases hs : s = k
    · simp [firstIdx, hs] at h
      subst h
      simp [hs]
    · simp only [firstIdx, hs, if_false, Option.map_eq_some'] at h
      obtain ⟨j', hj', rfl⟩ := h
      have ih := firstIdx_some k rest j' hj'
      refine ⟨by simpa using ih.1, ?_⟩
      intro t ht
      cases t with
      | zero => exact ⟨s, by simp, hs⟩
      | succ t => simpa using ih.2 t (by omega)

theorem firstIdx_lt {k : List xmlChar} {ns : List xmlCharPtr} {j : Nat}
    (h : firstIdx k ns = some j) : j < ns.length := by
  have := (firstIdx_some k ns j h).1
  by_contra hc
  rw [List.getElem?_eq_none (by omega)] at this
  cases this

theorem firstIdx_of_unique (k : List xmlChar) :
    ∀ (ns : List xmlCharPtr) (i : Nat), (∀ n ∈ ns, n ≠ none) → ns.Nodup →
      ns[i]? = some (some k) → firstIdx k ns = some i
  | [], i, _, _, h => by simp at h
  | none :: _, _, hn, _, _ => absurd rfl (hn none (List.mem_cons_self _ _))
  | some s :: rest, i, hn, hd, h => by
    rw [List.nodup_cons] at hd
    cases i with
    | zero =>
      simp at h
      simp [firstIdx, h]
    | succ i =>
      simp at h
      have hmem : some k ∈ rest := List.getElem?_mem h
      have hs : s ≠ k := fun e => hd.1 (by rw [e]; exact hmem)
      have ih := firstIdx_of_unique k rest i (fun n hn' => hn n (List.mem_cons_of_mem _ hn')) hd.2 h
      simp [firstIdx, hs, ih]

theorem firstIdx_none_iff (k : List xmlChar) :
    ∀ ns : List xmlCharPtr, firstIdx k ns = none ↔ k ∉ seen ns
  | [] => by simp [firstIdx, seen]
  | none :: _ => by simp [firstIdx, seen]
  | some s :: rest => by
    by_cases hs : s = k
    · simp [firstIdx, seen, hs]
    · have ih := firstIdx_none_iff k rest
      have hs' : ¬ k = s := fun e => hs e.symm
      simp [firstIdx, seen, hs, hs', ih]

theorem seen_eraseIdx_subset :
    ∀ (ns : List xmlCharPtr) (j : Nat) (x : List xmlChar),
      j < (seen ns).length → x ∈ seen (ns.eraseIdx j) → x ∈ seen ns
  | [], _, _, h, _ => by simp [seen] at h
  | none :: _, _, _, h, _ => by simp [seen] at h
  | some s :: rest, 0, x, _, hx => by
    simp [seen] at *; exact Or.inr hx
  | some s :: rest, j + 1, x, h, hx => by
    simp [seen] at *
    rcases hx with hx | hx
    · exact Or.inl hx
    · exact Or.inr (seen_eraseIdx_subset rest j x h hx)

theorem firstIdx_lt_seen (k : List xmlChar) :
    ∀ (ns : List xmlCharPtr) (j : Nat), firstIdx k ns = some j → j < (seen ns).length
  | [], j, h => by simp [firstIdx] at h
  | none :: _, j, h => by simp [firstIdx] at h
  | some s :: rest, j, h => by
    by_cases hs : s = k
    · simp [firstIdx, hs] at h; subst h; simp [seen]
    · simp only [firstIdx, hs, if_false, Option.map_eq_some'] at h
      obtain ⟨j', hj', rfl⟩ := h
      have := firstIdx_lt_seen k rest j' hj'
      simp [seen]; omega

theorem seen_eraseIdx_nodup (k : List xmlChar) :
    ∀ (ns : List xmlCharPtr) (j : Nat), firstIdx k ns = some j → (seen ns).Nodup →
      (seen (ns.eraseIdx j)).Nodup ∧ k ∉ seen (ns.eraseIdx j)
  | [], j, h, _ => by simp [firstIdx] at h
  | none :: _, j, h, _ => by simp [firstIdx] at h
  | some s :: rest, j, h, hd => by
    simp only [seen, List.nodup_cons] at hd
    by_cases hs : s = k
    · simp [firstIdx, hs] at h
      subst h
      subst hs
      simpa using ⟨hd.2, hd.1⟩
    · simp only [firstIdx, hs, if_false, Option.map_eq_some'] at h
      obtain ⟨j', hj', rfl⟩ := h
      have ih := seen_eraseIdx_nodup k rest j' hj' hd.2
      have hsub := seen_eraseIdx_subset rest j' s (firstIdx_lt_seen k rest j' hj')
      simp only [List.eraseIdx_cons_succ, seen, List.nodup_cons, List.mem_cons, not_or]
      exact ⟨⟨fun hm => hd.1 (hsub hm), ih.1⟩, fun e => hs e.symm, ih.2⟩


theorem data_of_lt {m : xmlSecMap} (hv : Valid m) {j : Nat} (hj : j < m.maxSize) :
    ∃ block, m.data = some block ∧ block.length = m.maxSize := by
  cases hd : m.data with
  | none => have := hv.1; simp [slots, hd] at this; omega
  | some block => exact ⟨block, rfl, by have := hv.1; simpa [slots, hd] using this⟩

theorem get_notfound {m : xmlSecMap} {k : List xmlChar} (hv : Valid m)
    (h : firstIdx k ((live m).map (·.name)) = none) :
    xmlSecMapGet m (some k) = some none := by
  simp [xmlSecMapGet, findItem_eq m k hv, h, idxToInt]

theorem get_found {m : xmlSecMap} {k : List xmlChar} {j : Nat} (hv : Valid m)
    (h : firstIdx k ((live m).map (·.name)) = some j) :
    ∃ item, (slots m)[j]? = some item ∧ item.name = some k ∧
      xmlSecMapGet m (some k) = some item.data := by
  have hj : j < m.size := by
    have := firstIdx_lt h; rw [List.length_map, live_length hv] at this; exact this
  obtain ⟨block, hd, hlen⟩ := data_of_lt hv (Nat.lt_of_lt_of_le hj hv.2)
  have hjb : j < block.length := by have := hv.2; omega
  have hnm := (firstIdx_some k _ j h).1
  rw [List.getElem?_map, live_eq_take, List.getElem?_take_of_lt hj, slots_of_data hd,
    List.getElem?_eq_getElem hjb] at hnm
  simp only [Option.map_some', Option.some.injEq] at hnm
  refine ⟨block[j], by rw [slots_of_data hd, List.getElem?_eq_getElem hjb], hnm, ?_⟩
  simp [xmlSecMapGet, findItem_eq m k hv, h, idxToInt, hd, List.getElem?_eq_getElem hjb]

theorem remove_notfound {m : xmlSecMap} {k : List xmlChar} (hv : Valid m)
    (h : firstIdx k ((live m).map (·.name)) = none) :
    xmlSecMapRemove m (some k) = some (m, []) := by
  simp [xmlSecMapRemove, findItem_eq m k hv, h, idxToInt]

theorem remove_found {m : xmlSecMap} {k : List xmlChar} {j : Nat} (hv : Valid m)
    (hsp : m.size < m.maxSize) (h : firstIdx k ((live m).map (·.name)) = some j) :
    ∃ m1 item, (slots m)[j]? = some item ∧
      xmlSecMapRemove m (some k) = some (m1, item.data.toList) ∧
      m1.size + 1 = m.size ∧ m1.maxSize = m.maxSize ∧ (slots m1).length = m.maxSize ∧
      live m1 = (live m).eraseIdx j ∧ (slots m1)[m1.size]? = (slots m)[m.size - 1]? := by
  have hj : j < m.size := by
    have := firstIdx_lt h; rw [List.length_map, live_length hv] at this; exact this
  obtain ⟨block, hd, hlen⟩ := data_of_lt hv hsp
  have hjb : j < block.length := by omega
  have hmv : (if (Int.ofNat j) + 1 < (m.size : Int) then
        memmove block j (j + 1) (m.size - j - 1) else some block)
      = some (block.take j ++ (block.drop (j + 1)).take (m.size - j - 1)
          ++ block.drop (m.size - 1)) := by
    by_cases hc : j + 1 < m.size
    · have hc' : (Int.ofNat j) + 1 < (m.size : Int) := by
        simp only [Int.ofNat_eq_coe]; omega
      have hb : j + 1 + (m.size - j - 1) ≤ block.length ∧ j + (m.size - j - 1) ≤ block.length := by
        omega
      rw [if_pos hc', memmove, if_pos hb]
      have : j + (m.size - j - 1) = m.size - 1 := by omega
      rw [this]
    · have hc' : ¬ ((Int.ofNat j) + 1 < (m.size : Int)) := by
        simp only [Int.ofNat_eq_coe]; omega
      have h0 : m.size - j - 1 = 0 := by omega
      have h1 : m.size - 1 = j := by omega
      rw [if_neg hc', h0, h1]
      simp
  have hmlen : (block.take j ++ (block.drop (j + 1)).take (m.size - j - 1)
      ++ block.drop (m.size - 1)).length = block.length := by
    simp only [List.length_append, List.length_take, List.length_drop]; omega
  refine ⟨{ m with data := some ((block.take j ++ (block.drop (j + 1)).take (m.size - j - 1)
      ++ block.drop (m.size - 1)).set m.size zeroItem), size := m.size - 1 }, block[j], ?_, ?_, ?_, rfl,
      ?_, ?_, ?_⟩
  · rw [slots_of_data hd, List.getElem?_eq_getElem hjb]
  · have ht : (Int.ofNat j).toNat = j := rfl
    simp only [xmlSecMapRemove, findItem_eq m k hv, h, idxToInt, hd]
    rw [if_neg (by simp only [Int.ofNat_eq_coe]; omega)]
    simp only [ht, List.getElem?_eq_getElem hjb, hmv]
    rw [if_pos (by rw [hmlen]; omega)]
  · simp only; omega
  · simp only [slots, Option.getD_some, List.length_set]; rw [hmlen, hlen]
  · simp only [live, hd, Option.getD_some]
    rw [List.take_set_of_lt _ _ (by omega), List.eraseIdx_eq_take_drop_succ, List.take_take,
      List.drop_take, Nat.min_eq_left (by omega)]
    have hl1 : (block.take j ++ (block.drop (j + 1)).take (m.size - j - 1)).length = m.size - 1 := by
      simp only [List.length_append, List.length_take, List.length_drop]; omega
    rw [List.take_append_eq_append_take, hl1, Nat.sub_self, List.take_zero, List.append_nil,
      List.take_of_length_le (by omega), Nat.sub_sub]
  · simp only [slots, hd, Option.getD_some]
    rw [List.getElem?_set_ne (by omega)]
    have hl1 : (block.take j ++ (block.drop (j + 1)).take (m.size - j - 1)).length = m.size - 1 := by
      simp only [List.length_append, List.length_take, List.length_drop]; omega
    rw [List.getElem?_append_right (by omega), hl1, Nat.sub_self, List.getElem?_drop, Nat.add_zero]


theorem reallocate_cases (fresh : Option (Nat → xmlSecMapItem)) (m : xmlSecMap) (delta : Nat)
    (hv : Valid m) :
    ((xmlSecMapReallocate fresh m delta).1 = -1 ∧ (xmlSecMapReallocate fresh m delta).2 = m) ∨
    ((xmlSecMapReallocate fresh m delta).1 = 0 ∧
      ∃ block, (xmlSecMapReallocate fresh m delta).2.data = some block ∧
        block.length = (xmlSecMapReallocate fresh m delta).2.maxSize ∧
        (xmlSecMapReallocate fresh m delta).2.size = m.size ∧
        m.size + delta < (xmlSecMapReallocate fresh m delta).2.maxSize ∧
        block.take m.maxSize = slots m) := by
  unfold xmlSecMapReallocate
  by_cases hc : m.size + delta < m.maxSize
  · right
    obtain ⟨block, hd, hlen⟩ := data_of_lt hv hc
    rw [if_pos hc]
    exact ⟨rfl, block, hd, hlen, rfl, hc, by rw [slots_of_data hd, ← hlen, List.take_length]⟩
  · rw [if_neg hc]
    cases fresh with
    | none => left; exact ⟨rfl, rfl⟩
    | some g =>
      right
      have hl := hv.1
      simp only [slots] at hl
      refine ⟨rfl, _, rfl, ?_, rfl, ?_, ?_⟩
      · show (List.take _ _ ++ _).length = 4 * (m.size + delta) / 3 + 1
        simp only [List.length_append, List.length_take, List.length_map, List.length_range]
        omega
      · show m.size + delta < 4 * (m.size + delta) / 3 + 1
        omega
      · simp only [slots]
        rw [List.take_append_eq_append_take, List.take_take, List.length_take]
        have h1 : m.maxSize - min (4 * (m.size + delta) / 3 + 1) (m.data.getD []).length = 0 := by
          omega
        rw [h1, List.take_zero, List.append_nil, ← hl, Nat.min_eq_left (by omega),
          List.take_length]

theorem set_found (fresh : Option (Nat → xmlSecMapItem)) (dupOk : Bool) {m : xmlSecMap}
    {k : List xmlChar} {j : Nat} (v : xmlSecObjPtr) (hv : Valid m)
    (h : firstIdx k ((live m).map (·.name)) = some j) :
    ∃ item, (slots m)[j]? = some item ∧ item.name = some k ∧ j < m.size ∧
      xmlSecMapSet fresh dupOk m (some k) v
        = some ⟨0, { m with data := some ((slots m).set j { item with data := v }) },
            item.data.toList⟩ := by
  have hj : j < m.size := by
    have := firstIdx_lt h; rw [List.length_map, live_length hv] at this; exact this
  obtain ⟨block, hd, hlen⟩ := data_of_lt hv (Nat.lt_of_lt_of_le hj hv.2)
  have hjb : j < block.length := by have := hv.2; omega
  have hnm := (firstIdx_some k _ j h).1
  rw [List.getElem?_map, live_eq_take, List.getElem?_take_of_lt hj, slots_of_data hd,
    List.getElem?_eq_getElem hjb] at hnm
  simp only [Option.map_some', Option.some.injEq] at hnm
  have ht : (Int.ofNat j).toNat = j := rfl
  refine ⟨block[j], by rw [slots_of_data hd, List.getElem?_eq_getElem hjb], hnm, hj, ?_⟩
  simp only [xmlSecMapSet, findItem_eq m k hv, h, idxToInt]
  rw [if_pos (by simp only [Int.ofNat_eq_coe]; omega)]
  simp only [hd, ht, List.getElem?_eq_getElem hjb, slots, Option.getD_some]

theorem set_new (fresh : Option (Nat → xmlSecMapItem)) (dupOk : Bool) {m : xmlSecMap}
    {k : List xmlChar} (v : xmlSecObjPtr) (hv : Valid m)
    (h : firstIdx k ((live m).map (·.name)) = none) :
    ((xmlSecMapReallocate fresh m 1).1 = -1 ∧
      xmlSecMapSet fresh dupOk m (some k) v = some ⟨-1, m, []⟩) ∨
    (∃ (block : List xmlSecMapItem) (newMax : Nat), block.length = newMax ∧ m.size + 1 < newMax ∧
      block.take m.maxSize = slots m ∧
      xmlSecMapSet fresh dupOk m (some k) v
        = some ⟨0, { data := some (block.set m.size
                        { name := xmlStrdup dupOk (some k), data := v }),
                     size := m.size + 1, maxSize := newMax }, []⟩) := by
  rcases reallocate_cases fresh m 1 hv with ⟨h1, h2⟩ | ⟨h1, block, hd, hlen, hsz, hlt, htk⟩
  · left
    refine ⟨h1, ?_⟩
    simp only [xmlSecMapSet, findItem_eq m k hv, h, idxToInt]
    simp [h1, h2]
  · right
    refine ⟨block, (xmlSecMapReallocate fresh m 1).2.maxSize, hlen, hlt, htk, ?_⟩
    simp only [xmlSecMapSet, findItem_eq m k hv, h, idxToInt]
    rw [if_neg (by decide)]
    simp only [h1, hd, hsz]
    rw [if_neg (by decide), if_pos (by omega), if_pos (by omega)]


theorem emptyLoop_some (m : xmlSecMap) :
    ∀ n i del, i + n ≤ (slots m).length → ∃ r, xmlSecMapEmpty.loop m n i del = some r := by
  intro n
  induction n with
  | zero => intro i del _; exact ⟨_, rfl⟩
  | succ n ih =>
    intro i del hi
    cases hd : m.data with
    | none => simp [slots, hd] at hi
    | some block =>
      have hlt : i < block.length := by simp [slots, hd] at hi; omega
      rw [xmlSecMapEmpty.loop, hd]
      simp only [List.getElem?_eq_getElem hlt]
      cases block[i].name with
      | none => exact ⟨_, rfl⟩
      | some s => exact ih (i + 1) _ (by omega)

theorem empty_cases {m : xmlSecMap} (hv : Valid m) :
    ∃ m1 del, xmlSecMapEmpty m = some (m1, del) ∧
      (m1 = m ∨ (m1.size = 0 ∧ m1.maxSize = m.maxSize ∧
        slots m1 = List.replicate m.maxSize zeroItem)) := by
  obtain ⟨⟨b, del⟩, hr⟩ := emptyLoop_some m m.size 0 [] (by have := hv.1; have := hv.2; omega)
  cases b with
  | false => exact ⟨m, del, by simp [xmlSecMapEmpty, hr], Or.inl rfl⟩
  | true =>
    by_cases hm : m.maxSize > 0
    · obtain ⟨block, hd, hlen⟩ := data_of_lt hv hm
      refine ⟨{ m with data := some (List.replicate m.maxSize zeroItem ++ block.drop m.maxSize),
                       size := 0 }, del, ?_, Or.inr ⟨rfl, rfl, ?_⟩⟩
      · simp [xmlSecMapEmpty, hr, hm, hd, memset, hlen]
      · simp [slots, ← hlen]
    · refine ⟨{ m with size := 0 }, del, ?_, Or.inr ⟨rfl, rfl, ?_⟩⟩
      · simp [xmlSecMapEmpty, hr, hm]
      · have h0 : m.maxSize = 0 := by omega
        have := hv.1
        rw [h0] at this ⊢
        simpa [slots] using this

theorem inv_valid {m : xmlSecMap} (h : Inv m) : Valid m := by
  refine ⟨h.1, ?_⟩
  rcases h.2.1 with h1 | ⟨h1, _⟩ <;> omega

theorem map_name_set {l : List xmlSecMapItem} {j : Nat} {item : xmlSecMapItem}
    (h : l[j]? = some item) (v : xmlSecObjPtr) :
    (l.set j { item with data := v }).map (·.name) = l.map (·.name) := by
  apply List.ext_getElem?
  intro i
  rw [List.getElem?_map, List.getElem?_map, List.getElem?_set]
  by_cases hij : j = i
  · subst hij
    have hlt : j < l.length := by
      by_contra hc; rw [List.getElem?_eq_none (by omega)] at h; cases h
    simp [hlt, h]
  · simp [hij]

theorem mem_seen_append :
    ∀ (ns : List xmlCharPtr) (x : xmlCharPtr) (y : List xmlChar),
      y ∈ seen (ns ++ [x]) → y ∈ seen ns ∨ x = some y
  | [], none, y, h => by simp [seen] at h
  | [], some s, y, h => by simp [seen] at h; exact Or.inr (by rw [h])
  | none :: _, _, _, h => by simp [seen] at h
  | some s :: rest, x, y, h => by
    simp only [List.cons_append, seen, List.mem_cons] at h ⊢
    rcases h with h | h
    · exact Or.inl (Or.inl h)
    · rcases mem_seen_append rest x y h with h | h
      · exact Or.inl (Or.inr h)
      · exact Or.inr h

theorem seen_append_nodup (k : List xmlChar) (x : xmlCharPtr) (hx : x = some k ∨ x = none) :
    ∀ ns : List xmlCharPtr, (seen ns).Nodup → k ∉ seen ns → (seen (ns ++ [x])).Nodup
  | [], _, _ => by rcases hx with rfl | rfl <;> simp [seen]
  | none :: _, _, _ => by simp [seen]
  | some s :: rest, hd, hk => by
    simp only [seen, List.nodup_cons, List.mem_cons, not_or] at hd hk
    simp only [List.cons_append, seen, List.nodup_cons]
    refine ⟨?_, seen_append_nodup k x hx rest hd.2 hk.2⟩
    intro hm
    rcases mem_seen_append rest x s hm with h | h
    · exact hd.1 h
    · rcases hx with rfl | rfl
      · simp at h; exact hk.1 h
      · cases h


theorem take_set_succ (l : List xmlSecMapItem) (n : Nat) (x : xmlSecMapItem)
    (hb : n < l.length) : (l.set n x).take (n + 1) = l.take n ++ [x] := by
  rw [List.take_succ, List.getElem?_set_self hb]
  congr 1
  apply List.ext_getElem?
  intro i
  rw [List.getElem?_take, List.getElem?_take]
  split
  · next h => rw [List.getElem?_set_ne (by omega)]
  · rfl

theorem map_eraseIdx_name (l : List xmlSecMapItem) (j : Nat) :
    (l.eraseIdx j).map (·.name) = (l.map (·.name)).eraseIdx j := by
  rw [List.eraseIdx_eq_take_drop_succ, List.eraseIdx_eq_take_drop_succ, List.map_append,
    List.map_take, List.map_drop]

theorem inv_init : Inv xmlSecMapConstructor := by
  refine ⟨rfl, Or.inr ⟨rfl, rfl⟩, ?_⟩
  simp [live, xmlSecMapConstructor, seen]

theorem inv_set (fresh : Option (Nat → xmlSecMapItem)) (dupOk : Bool) {m : xmlSecMap}
    (name : xmlCharPtr) (v : xmlSecObjPtr) {o : Outcome} (hi : Inv m)
    (h : xmlSecMapSet fresh dupOk m name v = some o) : Inv o.map := by
  have hv := inv_valid hi
  cases name with
  | none =>
    simp only [xmlSecMapSet, Option.some.injEq] at h
    subst h; exact hi
  | some k =>
    cases hf : firstIdx k ((live m).map (·.name)) with
    | some j =>
      obtain ⟨item, hit, _, hj, hs⟩ := set_found fresh dupOk v hv hf
      rw [hs, Option.some.injEq] at h
      subst h
      refine ⟨?_, hi.2.1, ?_⟩
      · simp only [slots, Option.getD_some, List.length_set]; exact hi.1
      · have : (live { m with data := some ((slots m).set j { item with data := v }) }).map
            (·.name) = (live m).map (·.name) := by
          simp only [live, Option.getD_some]
          rw [List.map_take, List.map_take, map_name_set hit v]; rfl
        rw [this]; exact hi.2.2
    | none =>
      rcases set_new fresh dupOk v hv hf with ⟨_, hs⟩ | ⟨block, newMax, hlen, hlt, htk, hs⟩
      · rw [hs, Option.some.injEq] at h
        subst h; exact hi
      · rw [hs, Option.some.injEq] at h
        subst h
        refine ⟨?_, Or.inl hlt, ?_⟩
        · simp only [slots, Option.getD_some, List.length_set]; exact hlen
        · have hlive : (block.set m.size
                (xmlSecMapItem.mk (xmlStrdup dupOk (some k)) v)).take (m.size + 1)
              = live m ++ [xmlSecMapItem.mk (xmlStrdup dupOk (some k)) v] := by
            rw [take_set_succ _ _ _ (by omega), live_eq_take, ← htk, List.take_take,
              Nat.min_eq_left hv.2]
          simp only [live, Option.getD_some]
          rw [hlive, List.map_append]
          apply seen_append_nodup k _ _ _ hi.2.2 ((firstIdx_none_iff k _).1 hf)
          cases dupOk <;> simp [xmlStrdup]

theorem inv_remove {m m1 : xmlSecMap} (name : xmlCharPtr) {del : List Nat} (hi : Inv m)
    (h : xmlSecMapRemove m name = some (m1, del)) : Inv m1 := by
  have hv := inv_valid hi
  cases name with
  | none =>
    simp only [xmlSecMapRemove, Option.some.injEq, Prod.mk.injEq] at h
    rw [← h.1]; exact hi
  | some k =>
    cases hf : firstIdx k ((live m).map (·.name)) with
    | none =>
      rw [remove_notfound hv hf, Option.some.injEq, Prod.mk.injEq] at h
      rw [← h.1]; exact hi
    | some j =>
      have hj : j < m.size := by
        have := firstIdx_lt hf; rw [List.length_map, live_length hv] at this; exact this
      have hsp : m.size < m.maxSize := by
        rcases hi.2.1 with h1 | ⟨h1, _⟩ <;> omega
      obtain ⟨m2, item, _, hr, hsz, hmax, hlen, hlive, _⟩ := remove_found hv hsp hf
      rw [hr, Option.some.injEq, Prod.mk.injEq] at h
      rw [← h.1]
      refine ⟨by rw [hlen, hmax], Or.inl (by omega), ?_⟩
      rw [hlive, map_eraseIdx_name]
      exact (seen_eraseIdx_nodup k _ j hf hi.2.2).1

theorem inv_empty {m m1 : xmlSecMap} {del : List Nat} (hi : Inv m)
    (h : xmlSecMapEmpty m = some (m1, del)) : Inv m1 := by
  obtain ⟨m2, del2, hr, hc⟩ := empty_cases (inv_valid hi)
  rw [hr, Option.some.injEq, Prod.mk.injEq] at h
  rw [← h.1]
  rcases hc with rfl | ⟨hsz, hmax, hsl⟩
  · exact hi
  · refine ⟨by rw [hsl, List.length_replicate, hmax], ?_, ?_⟩
    · by_cases h0 : m.maxSize = 0
      · exact Or.inr ⟨hsz, by rw [hmax, h0]⟩
      · exact Or.inl (by omega)
    · simp [live, hsz, seen]

theorem inv_step {c : Call} {w w1 : World} (hb : c.isBasic = true) (hi : Inv w.map)
    (h : step c w = some w1) : Inv w1.map := by
  cases c with
  | set fresh dupOk name data =>
    simp only [step, Option.map_eq_some'] at h
    obtain ⟨o, ho, rfl⟩ := h
    exact inv_set fresh dupOk name data hi ho
  | remove name =>
    simp only [step, Option.map_eq_some'] at h
    obtain ⟨⟨m1, del⟩, ho, rfl⟩ := h
    exact inv_remove name hi ho
  | empty =>
    simp only [step, Option.map_eq_some'] at h
    obtain ⟨⟨m1, del⟩, ho, rfl⟩ := h
    exact inv_empty hi ho
  | duplicate _ _ _ _ => cases hb
  | destroy => cases hb

theorem inv_run : ∀ (calls : List Call) (w w1 : World), (∀ c ∈ calls, c.isBasic = true) →
    Inv w.map → run calls w = some w1 → Inv w1.map
  | [], w, w1, _, hi, h => by
    simp only [run, Option.some.injEq] at h
    subst h; exact hi
  | c :: cs, w, w1, hb, hi, h => by
    simp only [run, Option.bind_eq_some] at h
    obtain ⟨w2, h2, h3⟩ := h
    exact inv_run cs w2 w1 (fun c hc => hb c (List.mem_cons_of_mem _ hc))
      (inv_step (hb c (List.mem_cons_self _ _)) hi h2) h3

theorem get_congr_names {m m1 : xmlSecMap} {k : List xmlChar} (hv : Valid m) (hv1 : Valid m1)
    (hn : (live m1).map (·.name) = (live m).map (·.name))
    (hs : ∀ j, firstIdx k ((live m).map (·.name)) = some j → (slots m1)[j]? = (slots m)[j]?) :
    xmlSecMapGet m1 (some k) = xmlSecMapGet m (some k) := by
  cases hf : firstIdx k ((live m).map (·.name)) with
  | none => rw [get_notfound hv hf, get_notfound hv1 (by rw [hn]; exact hf)]
  | some j =>
    obtain ⟨item, hit, _, hg⟩ := get_found hv hf
    obtain ⟨item1, hit1, _, hg1⟩ := get_found hv1 (by rw [hn]; exact hf)
    rw [hs j hf, hit, Option.some.injEq] at hit1
    rw [hg, hg1, hit1]

theorem firstIdx_append_new (k : List xmlChar) :
    ∀ ns : List xmlCharPtr, (∀ n ∈ ns, n ≠ none) → firstIdx k ns = none →
      firstIdx k (ns ++ [some k]) = some ns.length
  | [], _, _ => by simp [firstIdx]
  | none :: _, hn, _ => absurd rfl (hn none (List.mem_cons_self _ _))
  | some s :: rest, hn, h => by
    by_cases hs : s = k
    · simp [firstIdx, hs] at h
    · simp only [firstIdx, hs, if_false, Option.map_eq_none'] at h
      have ih := firstIdx_append_new k rest (fun n hn' => hn n (List.mem_cons_of_mem _ hn')) h
      simp [firstIdx, hs, ih]

theorem names_forall {m : xmlSecMap} {p : xmlCharPtr → Prop}
    (h : ∀ it ∈ live m, p it.name) : ∀ n ∈ (live m).map (·.name), p n := by
  intro n hn
  rw [List.mem_map] at hn
  obtain ⟨it, hit, rfl⟩ := hn
  exact h it hit

/-- Appending with a successful key copy: on a well-formed map, a set of a key
with no live entry that returns 0 adds the entry `(k, v)` after the live
entries. -/
theorem set_append_of_copy (fresh : Option (Nat → xmlSecMapItem)) {m : xmlSecMap}
    {k : List xmlChar} (v : xmlSecObjPtr) {o : Outcome} (hw : WellFormed m)
    (hk : ∀ it ∈ live m, it.name ≠ some k)
    (h : xmlSecMapSet fresh true m (some k) v = some o) (hret : o.ret = 0) :
    o.map.size = m.size + 1 ∧ live o.map = live m ++ [⟨some k, v⟩] ∧ Valid o.map ∧
      o.deleted = [] := by
  have hv := hw.1
  have hf : firstIdx k ((live m).map (·.name)) = none :=
    firstIdx_none_of_forall k _ (names_forall hk)
  rcases set_new fresh true v hv hf with ⟨_, hs⟩ | ⟨block, newMax, hlen, hlt, htk, hs⟩
  · rw [hs, Option.some.injEq] at h
    subst h; simp at hret
  · rw [hs, Option.some.injEq] at h
    subst h
    refine ⟨rfl, ?_, ⟨?_, ?_⟩, rfl⟩
    · simp only [live, Option.getD_some]
      rw [take_set_succ _ _ _ (by omega)]
      have : (m.data.getD []).take m.size = block.take m.size := by
        show (slots m).take m.size = _
        rw [← htk, List.take_take, Nat.min_eq_left hv.2]
      rw [this]
      rfl
    · simp only [slots, Option.getD_some, List.length_set]; exact hlen
    · show m.size + 1 ≤ newMax
      omega

/-- Set-then-get with a successful key copy: on a well-formed map, after a set
of `k` and `v` that returns 0, get of `k` returns `v`. -/
theorem set_get_of_copy (fresh : Option (Nat → xmlSecMapItem)) {m : xmlSecMap}
    {k : List xmlChar} (v : xmlSecObjPtr) {o : Outcome} (hw : WellFormed m)
    (h : xmlSecMapSet fresh true m (some k) v = some o) (hret : o.ret = 0) :
    xmlSecMapGet o.map (some k) = some v := by
  have hv := hw.1
  cases hf : firstIdx k ((live m).map (·.name)) with
  | some j =>
    obtain ⟨item, hit, _, hj, hs⟩ := set_found fresh true v hv hf
    rw [hs, Option.some.injEq] at h
    subst h
    have hlt : j < (slots m).length := by rw [hv.1]; exact Nat.lt_of_lt_of_le hj hv.2
    have hv1 : Valid { m with data := some ((slots m).set j { item with data := v }) } :=
      ⟨by simp only [slots, Option.getD_some, List.length_set]; exact hv.1, hv.2⟩
    have hn : (live { m with data := some ((slots m).set j { item with data := v }) }).map
        (·.name) = (live m).map (·.name) := by
      simp only [live, Option.getD_some]
      rw [List.map_take, List.map_take, map_name_set hit v]; rfl
    obtain ⟨item1, hit1, _, hg⟩ := get_found hv1 (by rw [hn]; exact hf)
    simp only [slots, Option.getD_some] at hit1
    rw [List.getElem?_set_self (by simpa [slots] using hlt), Option.some.injEq] at hit1
    rw [hg, ← hit1]
  | none =>
    have hk : ∀ it ∈ live m, it.name ≠ some k := by
      intro it hit e
      have hmem : k ∈ seen ((live m).map (·.name)) := by
        have hall : ∀ n ∈ (live m).map (·.name), n ≠ none := names_forall hw.2
        have hin : some k ∈ (live m).map (·.name) := List.mem_map.2 ⟨it, hit, e⟩
        generalize (live m).map (·.name) = ns at hall hin
        induction ns with
        | nil => cases hin
        | cons a rest ih =>
          cases a with
          | none => exact absurd rfl (hall none (List.mem_cons_self _ _))
          | some s =>
            simp only [seen, List.mem_cons]
            rcases List.mem_cons.1 hin with h1 | h1
            · left; exact (Option.some.inj h1)
            · right; exact ih (fun n hn => hall n (List.mem_cons_of_mem _ hn)) h1
      exact ((firstIdx_none_iff k _).1 hf) hmem
    obtain ⟨hsz, hlive, hv1, _⟩ := set_append_of_copy fresh v hw hk h hret
    have hf1 : firstIdx k ((live o.map).map (·.name)) = some m.size := by
      rw [hlive, List.map_append]
      have := firstIdx_append_new k _ (names_forall hw.2) hf
      rw [List.length_map, live_length hv] at this
      exact this
    obtain ⟨item1, hit1, _, hg⟩ := get_found hv1 hf1
    have hlast : (live o.map)[m.size]? = some ⟨some k, v⟩ := by
      rw [hlive, List.getElem?_append_right (by rw [live_length hv]), live_length hv,
        Nat.sub_self]
      rfl
    rw [live_eq_take, List.getElem?_take_of_lt (by omega), hit1, Option.some.injEq] at hlast
    rw [hg, hlast]

theorem idxToInt_eq_ofNat {o : Option Nat} {i : Nat} (h : idxToInt o = Int.ofNat i) :
    o = some i := by
  cases o with
  | none => simp [idxToInt] at h
  | some j => simp [idxToInt] at h; rw [h]

theorem seen_of_named : ∀ ns : List xmlCharPtr, (∀ n ∈ ns, n ≠ none) → (seen ns).map some = ns
  | [], _ => rfl
  | none :: _, h => absurd rfl (h none (List.mem_cons_self _ _))
  | some s :: rest, h => by
    simp only [seen, List.map_cons]
    rw [seen_of_named rest (fun n hn => h n (List.mem_cons_of_mem _ hn))]

theorem named_set (fresh : Option (Nat → xmlSecMapItem)) {m : xmlSecMap}
    (name : xmlCharPtr) (v : xmlSecObjPtr) {o : Outcome} (hv : Valid m)
    (hn : ∀ n ∈ (live m).map (·.name), n ≠ none)
    (h : xmlSecMapSet fresh true m name v = some o) :
    ∀ n ∈ (live o.map).map (·.name), n ≠ none := by
  cases name with
  | none =>
    simp only [xmlSecMapSet, Option.some.injEq] at h
    subst h; exact hn
  | some k =>
    cases hf : firstIdx k ((live m).map (·.name)) with
    | some j =>
      obtain ⟨item, hit, _, hj, hs⟩ := set_found fresh true v hv hf
      rw [hs, Option.some.injEq] at h
      subst h
      have : (live { m with data := some ((slots m).set j { item with data := v }) }).map
          (·.name) = (live m).map (·.name) := by
        simp only [live, Option.getD_some]
        rw [List.map_take, List.map_take, map_name_set hit v]; rfl
      rw [this]; exact hn
    | none =>
      rcases set_new fresh true v hv hf with ⟨_, hs⟩ | ⟨block, newMax, hlen, hlt, htk, hs⟩
      · rw [hs, Option.some.injEq] at h
        subst h; exact hn
      · rw [hs, Option.some.injEq] at h
        subst h
        have hlive : (block.set m.size (xmlSecMapItem.mk (xmlStrdup true (some k)) v)).take
              (m.size + 1)
            = live m ++ [xmlSecMapItem.mk (some k) v] := by
          rw [take_set_succ _ _ _ (by omega), live_eq_take, ← htk, List.take_take,
            Nat.min_eq_left hv.2]
          rfl
        simp only [live, Option.getD_some]
        rw [hlive, List.map_append]
        intro n hmem
        rcases List.mem_append.1 hmem with h1 | h1
        · exact hn n h1
        · simp at h1; rw [h1]; exact Option.some_ne_none _

theorem named_remove {m m1 : xmlSecMap} (name : xmlCharPtr) {del : List Nat} (hi : Inv m)
    (hn : ∀ n ∈ (live m).map (·.name), n ≠ none)
    (h : xmlSecMapRemove m name = some (m1, del)) :
    ∀ n ∈ (live m1).map (·.name), n ≠ none := by
  have hv := inv_valid hi
  cases name with
  | none =>
    simp only [xmlSecMapRemove, Option.some.injEq, Prod.mk.injEq] at h
    rw [← h.1]; exact hn
  | some k =>
    cases hf : firstIdx k ((live m).map (·.name)) with
    | none =>
      rw [remove_notfound hv hf, Option.some.injEq, Prod.mk.injEq] at h
      rw [← h.1]; exact hn
    | some j =>
      have hj : j < m.size := by
        have := firstIdx_lt hf; rw [List.length_map, live_length hv] at this; exact this
      have hsp : m.size < m.maxSize := by
        rcases hi.2.1 with h1 | ⟨h1, _⟩ <;> omega
      obtain ⟨m2, item, _, hr, _, _, _, hlive, _⟩ := remove_found hv hsp hf
      rw [hr, Option.some.injEq, Prod.mk.injEq] at h
      rw [← h.1, hlive, map_eraseIdx_name]
      intro n hmem
      exact hn n (List.mem_of_mem_eraseIdx hmem)

theorem named_empty {m m1 : xmlSecMap} {del : List Nat} (hv : Valid m)
    (hn : ∀ n ∈ (live m).map (·.name), n ≠ none)
    (h : xmlSecMapEmpty m = some (m1, del)) :
    ∀ n ∈ (live m1).map (·.name), n ≠ none := by
  obtain ⟨m2, del2, hr, hc⟩ := empty_cases hv
  rw [hr, Option.some.injEq, Prod.mk.injEq] at h
  rw [← h.1]
  rcases hc with rfl | ⟨hsz, _, _⟩
  · exact hn
  · simp [live, hsz]

/-- With every key copy succeeding, every map reached from the constructed map
by `xmlSecMapSet`, `xmlSecMapRemove` and `xmlSecMapEmpty` calls is well formed,
keeps a spare slot and has pairwise distinct keys. -/
theorem wellFormed_run_of_copy : ∀ (calls : List Call) (w w1 : World),
    (∀ c ∈ calls, c.isBasic = true ∧ c.copyOk = true) → Inv w.map →
    (∀ n ∈ (live w.map).map (·.name), n ≠ none) → run calls w = some w1 →
    WellFormed w1.map ∧ UniqueKeys w1.map ∧ Spare w1.map
  | [], w, w1, _, hi, hn, h => by
    simp only [run, Option.some.injEq] at h
    subst h
    refine ⟨⟨inv_valid hi, ?_⟩, ?_, hi.2.1⟩
    · intro it hit
      exact hn _ (List.mem_map.2 ⟨it, hit, rfl⟩)
    · unfold UniqueKeys
      rw [← seen_of_named _ hn]
      exact hi.2.2.map (fun a b e => Option.some.inj e)
  | c :: cs, w, w1, hb, hi, hn, h => by
    simp only [run, Option.bind_eq_some] at h
    obtain ⟨w2, h2, h3⟩ := h
    have hc := hb c (List.mem_cons_self _ _)
    have hi2 : Inv w2.map := inv_step hc.1 hi h2
    refine wellFormed_run_of_copy cs w2 w1 (fun c hc => hb c (List.mem_cons_of_mem _ hc)) hi2 ?_ h3
    cases c with
    | set fresh dupOk name data =>
      simp only [step, Option.map_eq_some'] at h2
      obtain ⟨o, ho, rfl⟩ := h2
      have hd : dupOk = true := hc.2
      subst hd
      exact named_set fresh name data (inv_valid hi) hn ho
    | remove name =>
      simp only [step, Option.map_eq_some'] at h2
      obtain ⟨⟨m1, del⟩, ho, rfl⟩ := h2
      exact named_remove name hi hn ho
    | empty =>
      simp only [step, Option.map_eq_some'] at h2
      obtain ⟨⟨m1, del⟩, ho, rfl⟩ := h2
      exact named_empty (inv_valid hi) hn ho
    | duplicate _ _ _ _ => cases hc.1
    | destroy => cases hc.1

/-! ## The claims -/

/-- C1 (failing input): on the constructed map, `xmlSecMapSet` of key "a" with
value 1, the block allocation succeeding and the key copy `xmlStrdup` failing,
returns 0 and leaves a live entry whose key is `NULL`; `xmlSecMapGet` of "a" on
the resulting map returns `NULL`, not the value stored. -/
theorem xmlSecMapSet_get_key_copy_failure :
    WellFormed xmlSecMapConstructor ∧
    xmlSecMapSet zeroFill false xmlSecMapConstructor (some keyA) (some 1)
      = some ⟨0, { data := some [⟨none, some 1⟩, zeroItem], size := 1, maxSize := 2 }, []⟩ ∧
    xmlSecMapGet { data := some [⟨none, some 1⟩, zeroItem], size := 1, maxSize := 2 } (some keyA)
      = some none := by
  decide

/-- C2 (failing input): after a set of "a" whose key copy fails, two sets of
the new key "b" both append: the live entries of the reachable map carry the
keys `NULL`, "b", "b", so the key "b" occurs twice. -/
theorem xmlSecMapSet_duplicate_key_after_copy_failure :
    (run [.set zeroFill false (some keyA) (some 1), .set zeroFill true (some keyB) (some 2),
          .set zeroFill true (some keyB) (some 3)] World.init).map
        (fun w => (live w.map).map (·.name)) = some [none, some keyB, some keyB] ∧
    (run [.set zeroFill false (some keyA) (some 1), .set zeroFill true (some keyB) (some 2),
          .set zeroFill true (some keyB) (some 3)] World.init).map
        (fun w => decide (UniqueKeys w.map)) = some false := by
  decide

/-- C3 (failing input): `set a=1` succeeds, `set b=2` returns 0 with its key
copy failing, and `empty` releases entry 0 (key "a", value 1) and returns at the
`NULL` key of entry 1 with the size still 2. The key "a" then has a live entry,
at index 0, whose key and value have been released: handle 1 is among the
destroyed ones. `xmlSecMapRemove` of "a" compares that released key, finds it
and releases the entry again: handle 1 is destroyed a second time. -/
theorem xmlSecMapRemove_released_entry :
    run [.set zeroFill true (some keyA) (some 1), .set zeroFill false (some keyB) (some 2),
         .empty] World.init
      = some { map := { data := some [⟨some keyA, some 1⟩, ⟨none, some 2⟩, zeroItem],
                        size := 2, maxSize := 3 },
               deleted := [1], taken := [1, 2] } ∧
    xmlSecMapGetName { data := some [⟨some keyA, some 1⟩, ⟨none, some 2⟩, zeroItem],
                       size := 2, maxSize := 3 } 0 = some (some keyA) ∧
    xmlSecMapFindItem { data := some [⟨some keyA, some 1⟩, ⟨none, some 2⟩, zeroItem],
                        size := 2, maxSize := 3 } (some keyA) = some 0 ∧
    run [.set zeroFill true (some keyA) (some 1), .set zeroFill false (some keyB) (some 2),
         .empty, .remove (some keyA)] World.init
      = some { map := { data := some [⟨none, some 2⟩, ⟨none, some 2⟩, zeroItem],
                        size := 1, maxSize := 3 },
               deleted := [1, 1], taken := [1, 2] } := by
  decide

/-- C4: for every well-formed map (valid memory, non-null live keys, and the
capacity invariant `Cap` that holds of every map the interface produces) and
every key `k` found at index `i`, `xmlSecMapRemove` of `k` leaves a map whose
size is one less and whose live entries are the previous live entries with the
one at index `i` erased: the entries before `i` are unchanged and the entry
formerly at `j + 1 > i` is now at `j`. -/
theorem xmlSecMapRemove_erases_entry (m : xmlSecMap) (k : List xmlChar) (i : Nat)
    (hw : WellFormed m) (hc : Cap m)
    (hf : xmlSecMapFindItem m (some k) = some (Int.ofNat i)) :
    ∃ m1 del, xmlSecMapRemove m (some k) = some (m1, del) ∧
      m1.size + 1 = m.size ∧
      live m1 = (live m).eraseIdx i ∧
      (∀ j, j < i → (live m1)[j]? = (live m)[j]?) ∧
      (∀ j, i ≤ j → (live m1)[j]? = (live m)[j + 1]?) := by
  have hv := hw.1
  rw [findItem_eq m k hv, Option.some.injEq] at hf
  have hfi := idxToInt_eq_ofNat hf
  have hi : i < m.size := by
    have := firstIdx_lt hfi; rw [List.length_map, live_length hv] at this; exact this
  have hsp : m.size < m.maxSize := by
    rcases hc.2 with h1 | ⟨h1, _⟩ <;> omega
  obtain ⟨m1, item, _, hrm, hsz, _, _, hlive, _⟩ := remove_found hv hsp hfi
  refine ⟨m1, _, hrm, hsz, hlive, ?_, ?_⟩
  · intro j hj
    rw [hlive, List.getElem?_eraseIdx_of_lt _ _ _ hj]
  · intro j hj
    rw [hlive, List.getElem?_eraseIdx_of_ge _ _ _ hj]

/-- C4 (witness): removing "b" from the map holding "a", "b", "c". -/
theorem xmlSecMapRemove_erases_entry_witness :
    WellFormed worldABC.map ∧ Cap worldABC.map ∧
    xmlSecMapFindItem worldABC.map (some keyB) = some (Int.ofNat 1) ∧
    ∃ m1 del, xmlSecMapRemove worldABC.map (some keyB) = some (m1, del) ∧
      m1.size + 1 = worldABC.map.size ∧
      live m1 = (live worldABC.map).eraseIdx 1 ∧
      (∀ j, j < 1 → (live m1)[j]? = (live worldABC.map)[j]?) ∧
      (∀ j, 1 ≤ j → (live m1)[j]? = (live worldABC.map)[j + 1]?) :=
  ⟨by decide, by decide, by decide,
    xmlSecMapRemove_erases_entry worldABC.map keyB 1 (by decide) (by decide) (by decide)⟩

/-- C5: for every well-formed map with pairwise distinct keys in which key `k`
has a live entry at index `i`, `xmlSecMapSet` of `k` and `v` (whatever the
allocator would do) returns 0, leaves `size`, `maxSize` and the key of every
slot unchanged, leaves every slot other than `i` unchanged, and makes the value
at index `i` equal to `v`; afterwards get of `k` returns `v` and get of any
other key returns what it returned before. -/
theorem xmlSecMapSet_replace_frame (fresh : Option (Nat → xmlSecMapItem)) (dupOk : Bool)
    (m : xmlSecMap) (k : List xmlChar) (i : Nat) (v : xmlSecObjPtr)
    (hw : WellFormed m) (hu : UniqueKeys m)
    (hk : (live m)[i]?.map (·.name) = some (some k)) :
    ∃ o, xmlSecMapSet fresh dupOk m (some k) v = some o ∧ o.ret = 0 ∧
      o.map.size = m.size ∧ o.map.maxSize = m.maxSize ∧
      (slots o.map).map (·.name) = (slots m).map (·.name) ∧
      (∀ j, j ≠ i → (slots o.map)[j]? = (slots m)[j]?) ∧
      (slots o.map)[i]?.map (·.data) = some v ∧
      xmlSecMapGet o.map (some k) = some v ∧
      (∀ k2, k2 ≠ k → xmlSecMapGet o.map (some k2) = xmlSecMapGet m (some k2)) := by
  have hv := hw.1
  have hfi : firstIdx k ((live m).map (·.name)) = some i := by
    apply firstIdx_of_unique k _ i (names_forall hw.2) hu
    rw [List.getElem?_map]; exact hk
  obtain ⟨item, hit, _, hi, hs⟩ := set_found fresh dupOk v hv hfi
  have hlt : i < (slots m).length := by rw [hv.1]; exact Nat.lt_of_lt_of_le hi hv.2
  have hv1 : Valid { m with data := some ((slots m).set i { item with data := v }) } :=
    ⟨by simp only [slots, Option.getD_some, List.length_set]; exact hv.1, hv.2⟩
  have hn : (live { m with data := some ((slots m).set i { item with data := v }) }).map
      (·.name) = (live m).map (·.name) := by
    simp only [live, Option.getD_some]
    rw [List.map_take, List.map_take, map_name_set hit v]; rfl
  have hself : ((slots m).set i { item with data := v })[i]? = some { item with data := v } :=
    List.getElem?_set_self hlt
  refine ⟨_, hs, rfl, rfl, rfl, ?_, ?_, ?_, ?_, ?_⟩
  · simp only [slots, Option.getD_some]
    exact map_name_set hit v
  · intro j hj
    simp only [slots, Option.getD_some]
    exact List.getElem?_set_ne (fun e => hj e.symm)
  · show Option.map _ ((slots m).set i { item with data := v })[i]? = some v
    rw [hself]
    rfl
  · obtain ⟨item1, hit1, _, hg⟩ := get_found hv1 (by rw [hn]; exact hfi)
    change ((slots m).set i { item with data := v })[i]? = some item1 at hit1
    rw [hself, Option.some.injEq] at hit1
    show xmlSecMapGet { m with data := some ((slots m).set i { item with data := v }) }
      (some k) = some v
    rw [hg, ← hit1]
  · intro k2 hk2
    apply get_congr_names hv hv1 hn
    intro j hj
    have hne : i ≠ j := by
      intro e
      subst e
      have h1 := (firstIdx_some k _ i hfi).1
      have h2 := (firstIdx_some k2 _ i hj).1
      rw [h1] at h2
      exact hk2 (Option.some.inj (Option.some.inj h2)).symm
    simp only [slots, Option.getD_some]
    exact List.getElem?_set_ne hne

/-- C5 (witness): the scenario `set a=1; set b=2` followed by `set a=3`. -/
theorem xmlSecMapSet_replace_frame_witness :
    WellFormed mapAB ∧ UniqueKeys mapAB ∧
    (live mapAB)[0]?.map (·.name) = some (some keyA) ∧
    ∃ o, xmlSecMapSet none false mapAB (some keyA) (some 3) = some o ∧ o.ret = 0 ∧
      o.map.size = mapAB.size ∧ o.map.maxSize = mapAB.maxSize ∧
      (slots o.map).map (·.name) = (slots mapAB).map (·.name) ∧
      (∀ j, j ≠ 0 → (slots o.map)[j]? = (slots mapAB)[j]?) ∧
      (slots o.map)[0]?.map (·.data) = some (some 3) ∧
      xmlSecMapGet o.map (some keyA) = some (some 3) ∧
      (∀ k2, k2 ≠ keyA → xmlSecMapGet o.map (some k2) = xmlSecMapGet mapAB (some k2)) :=
  ⟨by decide, by decide, by decide,
    xmlSecMapSet_replace_frame none false mapAB keyA 0 (some 3) (by decide) (by decide)
      (by decide)⟩

/-- C6 (failing input): on the well-formed map holding "a", "b", "c", a set of
the new key "d" with value 4 whose key copy `xmlStrdup` fails returns 0 and
raises the size to 4, but the entry at the old size, index 3, has key `NULL`,
not a key equal to "d". -/
theorem xmlSecMapSet_append_key_copy_failure :
    WellFormed worldABC.map ∧ (∀ it ∈ live worldABC.map, it.name ≠ some [100]) ∧
    xmlSecMapSet zeroFill false worldABC.map (some [100]) (some 4)
      = some ⟨0, { data := some [⟨some keyA, some 1⟩, ⟨some keyB, some 2⟩, ⟨some keyC, some 3⟩,
                                 ⟨none, some 4⟩, zeroItem],
                   size := 4, maxSize := 5 }, []⟩ := by
  decide

/-- C7 (failing input): after `set a=1; remove a` on the constructed map the
size is 0 and the block has two slots; `xmlSecMapRemove` stored `NULL` into
slot 1 (the old size), and slot 0, the slot at the new size, still holds the
key "a" and the destroyed value 1. -/
theorem xmlSecMapRemove_trailing_slot_not_cleared :
    run [.set zeroFill true (some keyA) (some 1), .remove (some keyA)] World.init
      = some { map := { data := some [⟨some keyA, some 1⟩, zeroItem], size := 0, maxSize := 2 },
               deleted := [1], taken := [1] } := by
  decide

/-- C8 (failing input): `set a=1` succeeds, `set b=2` succeeds with its key
copy failing, then `empty` and the destructor run. Both values were taken, yet
value 1 is destroyed twice and value 2 never: `xmlSecMapEmpty` destroys entry 0,
returns at the `NULL` key of entry 1 with both entries still live, and the
destructor repeats it before releasing the block. -/
theorem xmlSecMap_leak_and_double_destroy :
    run [.set zeroFill true (some keyA) (some 1), .set zeroFill false (some keyB) (some 2),
         .empty, .destroy] World.init
      = some { map := xmlSecMapConstructor, deleted := [1, 1], taken := [1, 2] } := by
  decide

/-- C9: for every well-formed map and every key `k` with no live entry, if the
growth inside `xmlSecMapSet` fails (`xmlSecMapReallocate` returns a negative
code), the set returns `-1`, the map is exactly as before the call (size,
capacity and every slot), and no value is destroyed. -/
theorem xmlSecMapSet_growth_failure (fresh : Option (Nat → xmlSecMapItem)) (dupOk : Bool)
    (m : xmlSecMap) (k : List xmlChar) (v : xmlSecObjPtr)
    (hw : WellFormed m) (hk : ∀ it ∈ live m, it.name ≠ some k)
    (hfail : (xmlSecMapReallocate fresh m 1).1 < 0) :
    xmlSecMapSet fresh dupOk m (some k) v = some ⟨-1, m, []⟩ := by
  have hv := hw.1
  have hf : firstIdx k ((live m).map (·.name)) = none := by
    apply firstIdx_none_of_forall
    intro n hn
    rw [List.mem_map] at hn
    obtain ⟨it, hit, rfl⟩ := hn
    exact hk it hit
  rcases reallocate_cases fresh m 1 hv with ⟨h1, h2⟩ | ⟨h1, _⟩
  · simp only [xmlSecMapSet, findItem_eq m k hv, hf, idxToInt]
    simp [h1, h2]
  · rw [h1] at hfail; exact absurd hfail (by decide)

/-- C9 (witness): the allocator fails on the first set of a constructed map. -/
theorem xmlSecMapSet_growth_failure_witness :
    WellFormed xmlSecMapConstructor ∧ (∀ it ∈ live xmlSecMapConstructor, it.name ≠ some keyA) ∧
    (xmlSecMapReallocate none xmlSecMapConstructor 1).1 < 0 ∧
    xmlSecMapSet none true xmlSecMapConstructor (some keyA) (some 1)
      = some ⟨-1, xmlSecMapConstructor, []⟩ :=
  ⟨by decide, by decide, by decide,
    xmlSecMapSet_growth_failure none true xmlSecMapConstructor keyA (some 1) (by decide)
      (by decide) (by decide)⟩

/-- C10: for every well-formed map and every key `k` that equals no live
entry's key, `xmlSecMapGet` returns `NULL` and `xmlSecMapRemove` returns the
map unchanged (size, capacity and every slot) and destroys nothing. -/
theorem xmlSecMap_notfound_noop (m : xmlSecMap) (k : List xmlChar)
    (hw : WellFormed m) (hk : ∀ it ∈ live m, it.name ≠ some k) :
    xmlSecMapGet m (some k) = some none ∧ xmlSecMapRemove m (some k) = some (m, []) := by
  have hf : firstIdx k ((live m).map (·.name)) = none := by
    apply firstIdx_none_of_forall
    intro n hn
    rw [List.mem_map] at hn
    obtain ⟨it, hit, rfl⟩ := hn
    exact hk it hit
  exact ⟨get_notfound hw.1 hf, remove_notfound hw.1 hf⟩

/-- C10 (witness): the key "d" in the map holding "a", "b", "c". -/
theorem xmlSecMap_notfound_noop_witness :
    WellFormed worldABC.map ∧ (∀ it ∈ live worldABC.map, it.name ≠ some [100]) ∧
    xmlSecMapGet worldABC.map (some [100]) = some none ∧
    xmlSecMapRemove worldABC.map (some [100]) = some (worldABC.map, []) :=
  ⟨by decide, by decide, xmlSecMap_notfound_noop worldABC.map [100] (by decide) (by decide)⟩

/-! ## The scenarios of the specification -/

/-- The scenario `set a=1; set b=2; set a=3`: the map is `mapAB` after the
first two calls; after the third the size is 2, get of "a" returns 3, get of "b"
returns 2 and the replaced value 1 has been destroyed. -/
theorem scenario_replace :
    (run [.set zeroFill true (some keyA) (some 1), .set zeroFill true (some keyB) (some 2)]
        World.init).map (·.map) = some mapAB ∧
    run [.set zeroFill true (some keyA) (some 1), .set zeroFill true (some keyB) (some 2),
         .set zeroFill true (some keyA) (some 3)] World.init
      = some { map := { data := some [⟨some keyA, some 3⟩, ⟨some keyB, some 2⟩, zeroItem],
                        size := 2, maxSize := 3 },
               deleted := [1], taken := [1, 2, 3] } ∧
    xmlSecMapGet { data := some [⟨some keyA, some 3⟩, ⟨some keyB, some 2⟩, zeroItem],
                   size := 2, maxSize := 3 } (some keyA) = some (some 3) ∧
    xmlSecMapGet { data := some [⟨some keyA, some 3⟩, ⟨some keyB, some 2⟩, zeroItem],
                   size := 2, maxSize := 3 } (some keyB) = some (some 2) := by
  decide

/-- The scenario `set a=1; set b=2; set c=3; remove b`: the live keys are "a",
"c" in this order and get of "b" returns no value. -/
theorem scenario_remove :
    (run (callsABC ++ [.remove (some keyB)]) World.init).map
        (fun w => (live w.map).map (·.name)) = some [some keyA, some keyC] ∧
    (run (callsABC ++ [.remove (some keyB)]) World.init).map
        (fun w => xmlSecMapGet w.map (some keyB)) = some (some none) := by
  decide

end XmlSec

/-! ## Lemmas about growth, copying, emptying and the capacity invariant -/

namespace XmlSec

theorem cap_valid {m : xmlSecMap} (h : Cap m) : Valid m := by
  refine ⟨h.1, ?_⟩
  rcases h.2 with h1 | ⟨h1, _⟩ <;> omega

theorem inv_cap {m : xmlSecMap} (h : Inv m) : Cap m := ⟨h.1, h.2.1⟩

theorem cap_init : Cap xmlSecMapConstructor := ⟨rfl, Or.inr ⟨rfl, rfl⟩⟩

theorem cap_set (fresh : Option (Nat → xmlSecMapItem)) (dupOk : Bool) {m : xmlSecMap}
    (name : xmlCharPtr) (v : xmlSecObjPtr) {o : Outcome} (hc : Cap m)
    (h : xmlSecMapSet fresh dupOk m name v = some o) : Cap o.map := by
  have hv := cap_valid hc
  cases name with
  | none =>
    simp only [xmlSecMapSet, Option.some.injEq] at h
    subst h; exact hc
  | some k =>
    cases hf : firstIdx k ((live m).map (·.name)) with
    | some j =>
      obtain ⟨item, _, _, _, hs⟩ := set_found fresh dupOk v hv hf
      rw [hs, Option.some.injEq] at h
      subst h
      refine ⟨?_, hc.2⟩
      simp only [slots, Option.getD_some, List.length_set]; exact hc.1
    | none =>
      rcases set_new fresh dupOk v hv hf with ⟨_, hs⟩ | ⟨block, newMax, hlen, hlt, _, hs⟩
      · rw [hs, Option.some.injEq] at h
        subst h; exact hc
      · rw [hs, Option.some.injEq] at h
        subst h
        refine ⟨?_, Or.inl hlt⟩
        simp only [slots, Option.getD_some, List.length_set]; exact hlen

theorem cap_remove {m m1 : xmlSecMap} (name : xmlCharPtr) {del : List Nat} (hc : Cap m)
    (h : xmlSecMapRemove m name = some (m1, del)) : Cap m1 := by
  have hv := cap_valid hc
  cases name with
  | none =>
    simp only [xmlSecMapRemove, Option.some.injEq, Prod.mk.injEq] at h
    rw [← h.1]; exact hc
  | some k =>
    cases hf : firstIdx k ((live m).map (·.name)) with
    | none =>
      rw [remove_notfound hv hf, Option.some.injEq, Prod.mk.injEq] at h
      rw [← h.1]; exact hc
    | some j =>
      have hj : j < m.size := by
        have := firstIdx_lt hf; rw [List.length_map, live_length hv] at this; exact this
      have hsp : m.size < m.maxSize := by
        rcases hc.2 with h1 | ⟨h1, _⟩ <;> omega
      obtain ⟨m2, item, _, hr, hsz, hmax, hlen, _, _⟩ := remove_found hv hsp hf
      rw [hr, Option.some.injEq, Prod.mk.injEq] at h
      rw [← h.1]
      exact ⟨by rw [hlen, hmax], Or.inl (by omega)⟩

theorem cap_empty {m m1 : xmlSecMap} {del : List Nat} (hc : Cap m)
    (h : xmlSecMapEmpty m = some (m1, del)) : Cap m1 := by
  obtain ⟨m2, del2, hr, hcs⟩ := empty_cases (cap_valid hc)
  rw [hr, Option.some.injEq, Prod.mk.injEq] at h
  rw [← h.1]
  rcases hcs with rfl | ⟨hsz, hmax, hsl⟩
  · exact hc
  · refine ⟨by rw [hsl, List.length_replicate, hmax], ?_⟩
    by_cases h0 : m.maxSize = 0
    · exact Or.inr ⟨hsz, by rw [hmax, h0]⟩
    · exact Or.inl (by omega)

theorem dupLoop_length (dupOk : Nat → Bool) (objDup : xmlSecObjPtr → xmlSecObjPtr)
    (src : Option (List xmlSecMapItem)) :
    ∀ n i dst dst1, xmlSecMapDuplicator.loop dupOk objDup src n i dst = some dst1 →
      dst1.length = dst.length := by
  intro n
  induction n with
  | zero =>
    intro i dst dst1 h
    simp only [xmlSecMapDuplicator.loop, Option.some.injEq] at h
    rw [← h]
  | succ n ih =>
    intro i dst dst1 h
    cases src with
    | none => simp [xmlSecMapDuplicator.loop] at h
    | some sblock =>
      simp only [xmlSecMapDuplicator.loop] at h
      cases hs : sblock[i]? with
      | none => rw [hs] at h; cases h
      | some item =>
        rw [hs] at h
        simp only at h
        by_cases hlt : i < dst.length
        · rw [if_pos hlt] at h
          rw [ih _ _ _ h, List.length_set]
        · rw [if_neg hlt] at h; cases h

theorem cap_duplicate (fresh : Option (Nat → xmlSecMapItem)) (dupOk : Nat → Bool)
    (objDup : xmlSecObjPtr → xmlSecObjPtr) {dst : xmlSecMap} (src : xmlSecMap) {o : Outcome}
    (hc : Cap dst) (h : xmlSecMapDuplicator fresh dupOk objDup dst src = some o) :
    Cap o.map := by
  unfold xmlSecMapDuplicator at h
  cases he : xmlSecMapEmpty dst with
  | none => rw [he] at h; cases h
  | some r =>
    obtain ⟨d0, del⟩ := r
    rw [he] at h
    simp only at h
    have hc0 : Cap d0 := cap_empty hc he
    rcases reallocate_cases fresh d0 src.size (cap_valid hc0) with
      ⟨h1, h2⟩ | ⟨h1, block, hd, hlen, hsz, hlt, _⟩
    · rw [if_pos (by rw [h1]; decide), Option.some.injEq] at h
      subst h
      show Cap (xmlSecMapReallocate fresh d0 src.size).2
      rw [h2]; exact hc0
    · rw [if_neg (by rw [h1]; decide), hd] at h
      simp only at h
      rw [if_pos (by omega)] at h
      cases hl : xmlSecMapDuplicator.loop dupOk objDup src.data src.size 0 block with
      | none => rw [hl] at h; cases h
      | some block1 =>
        rw [hl, Option.some.injEq] at h
        subst h
        refine ⟨?_, Or.inl ?_⟩
        · show block1.length = _
          rw [dupLoop_length dupOk objDup src.data _ _ _ _ hl]; exact hlen
        · show src.size < (xmlSecMapReallocate fresh d0 src.size).2.maxSize
          omega

theorem cap_destroy {m m1 : xmlSecMap} {del : List Nat}
    (h : xmlSecMapDestructor m = some (m1, del)) : Cap m1 := by
  unfold xmlSecMapDestructor at h
  cases he : xmlSecMapEmpty m with
  | none => rw [he] at h; cases h
  | some r =>
    rw [he, Option.some.injEq, Prod.mk.injEq] at h
    rw [← h.1]
    exact ⟨rfl, Or.inr ⟨rfl, rfl⟩⟩

theorem cap_step {c : Call} {w w1 : World} (hc : Cap w.map) (h : step c w = some w1) :
    Cap w1.map := by
  cases c with
  | set fresh dupOk name data =>
    simp only [step, Option.map_eq_some'] at h
    obtain ⟨o, ho, rfl⟩ := h
    exact cap_set fresh dupOk name data hc ho
  | remove name =>
    simp only [step, Option.map_eq_some'] at h
    obtain ⟨⟨m1, del⟩, ho, rfl⟩ := h
    exact cap_remove name hc ho
  | empty =>
    simp only [step, Option.map_eq_some'] at h
    obtain ⟨⟨m1, del⟩, ho, rfl⟩ := h
    exact cap_empty hc ho
  | duplicate fresh dupOk objDup src =>
    simp only [step, Option.map_eq_some'] at h
    obtain ⟨o, ho, rfl⟩ := h
    exact cap_duplicate fresh dupOk objDup src hc ho
  | destroy =>
    simp only [step, Option.map_eq_some'] at h
    obtain ⟨⟨m1, del⟩, ho, rfl⟩ := h
    exact cap_destroy ho

theorem cap_run : ∀ (calls : List Call) (w w1 : World), Cap w.map → run calls w = some w1 →
    Cap w1.map
  | [], w, w1, hc, h => by
    simp only [run, Option.some.injEq] at h
    subst h; exact hc
  | c :: cs, w, w1, hc, h => by
    simp only [run, Option.bind_eq_some] at h
    obtain ⟨w2, h2, h3⟩ := h
    exact cap_run cs w2 w1 (cap_step hc h2) h3

theorem reallocate_some (g : Nat → xmlSecMapItem) (m : xmlSecMap) (delta : Nat) :
    (xmlSecMapReallocate (some g) m delta).1 = 0 := by
  unfold xmlSecMapReallocate
  by_cases hc : m.size + delta < m.maxSize
  · rw [if_pos hc]
  · rw [if_neg hc]; rfl

theorem set_new_some (g : Nat → xmlSecMapItem) {m : xmlSecMap} {k : List xmlChar}
    (v : xmlSecObjPtr) (hw : WellFormed m) (hk : ∀ it ∈ live m, it.name ≠ some k) :
    ∃ o, xmlSecMapSet (some g) true m (some k) v = some o ∧ o.ret = 0 ∧
      o.map.size = m.size + 1 ∧ live o.map = live m ++ [⟨some k, v⟩] ∧ Valid o.map ∧
      o.deleted = [] := by
  have hf : firstIdx k ((live m).map (·.name)) = none :=
    firstIdx_none_of_forall k _ (names_forall hk)
  rcases set_new (some g) true v hw.1 hf with ⟨h1, _⟩ | ⟨block, newMax, _, _, _, hs⟩
  · rw [reallocate_some] at h1; exact absurd h1 (by decide)
  · exact ⟨_, hs, rfl, set_append_of_copy (some g) v hw hk hs rfl⟩

theorem get_of_live {m : xmlSecMap} {k : List xmlChar} {j : Nat} {it : xmlSecMapItem}
    (hw : WellFormed m) (hu : UniqueKeys m) (hj : (live m)[j]? = some it)
    (hn : it.name = some k) : xmlSecMapGet m (some k) = some it.data := by
  have hf : firstIdx k ((live m).map (·.name)) = some j := by
    apply firstIdx_of_unique k _ j (names_forall hw.2) hu
    rw [List.getElem?_map, hj]; simp [hn]
  obtain ⟨item, hit, _, hg⟩ := get_found hw.1 hf
  have hlt : j < m.size := by
    have := firstIdx_lt hf; rw [List.length_map, live_length hw.1] at this; exact this
  rw [live_eq_take, List.getElem?_take_of_lt hlt, hit, Option.some.injEq] at hj
  rw [hg, hj]

theorem firstIdx_of_first (k : List xmlChar) :
    ∀ (ns : List xmlCharPtr) (i : Nat), (∀ n ∈ ns, n ≠ none) → ns[i]? = some (some k) →
      (∀ j, j < i → ns[j]? ≠ some (some k)) → firstIdx k ns = some i
  | [], i, _, h, _ => by simp at h
  | none :: _, _, hn, _, _ => absurd rfl (hn none (List.mem_cons_self _ _))
  | some s :: rest, i, hn, h, hfirst => by
    cases i with
    | zero =>
      simp at h
      simp [firstIdx, h]
    | succ i =>
      simp at h
      have hs : s ≠ k := by
        intro e
        exact hfirst 0 (Nat.succ_pos _) (by simp [e])
      have ih := firstIdx_of_first k rest i (fun n hn' => hn n (List.mem_cons_of_mem _ hn')) h
        (fun j hj => by simpa using hfirst (j + 1) (by omega))
      simp [firstIdx, hs, ih]

theorem mem_seen_iff : ∀ (ns : List xmlCharPtr) (k : List xmlChar), (∀ n ∈ ns, n ≠ none) →
    (k ∈ seen ns ↔ some k ∈ ns)
  | [], _, _ => by simp [seen]
  | none :: _, _, hn => absurd rfl (hn none (List.mem_cons_self _ _))
  | some s :: rest, k, hn => by
    have ih := mem_seen_iff rest k (fun n hn' => hn n (List.mem_cons_of_mem _ hn'))
    simp only [seen, List.mem_cons, ih, Option.some.injEq]

theorem emptyLoop_named (m : xmlSecMap) (block : List xmlSecMapItem) (hd : m.data = some block) :
    ∀ n i del, i + n ≤ block.length →
      (∀ it ∈ (block.drop i).take n, it.name ≠ none) →
      xmlSecMapEmpty.loop m n i del
        = some (true, del ++ ((block.drop i).take n).filterMap (·.data)) := by
  intro n
  induction n with
  | zero => intro i del _ _; simp [xmlSecMapEmpty.loop]
  | succ n ih =>
    intro i del hi hn
    have hlt : i < block.length := by omega
    have hdrop : block.drop i = block[i] :: block.drop (i + 1) := List.drop_eq_getElem_cons hlt
    rw [hdrop, List.take_succ_cons] at hn ⊢
    rw [xmlSecMapEmpty.loop, hd]
    simp only [List.getElem?_eq_getElem hlt]
    cases hname : block[i].name with
    | none => exact absurd hname (hn _ (List.mem_cons_self _ _))
    | some s =>
      simp only
      rw [ih (i + 1) _ (by omega) (fun it hit => hn it (List.mem_cons_of_mem _ hit))]
      cases hdata : block[i].data with
      | none => simp [List.filterMap_cons, hdata]
      | some d => simp [List.filterMap_cons, hdata]

theorem empty_wf {m : xmlSecMap} (hw : WellFormed m) :
    ∃ m1, xmlSecMapEmpty m = some (m1, (live m).filterMap (·.data)) ∧
      m1.size = 0 ∧ m1.maxSize = m.maxSize ∧ slots m1 = List.replicate m.maxSize zeroItem ∧
      (m1.data = none ↔ m.data = none) := by
  have hv := hw.1
  have hloop : xmlSecMapEmpty.loop m m.size 0 [] = some (true, (live m).filterMap (·.data)) := by
    cases hd : m.data with
    | none =>
      have h0 : m.size = 0 := by
        have := hv.1; have := hv.2; simp [slots, hd] at *; omega
      simp [h0, xmlSecMapEmpty.loop, live]
    | some block =>
      have hl : 0 + m.size ≤ block.length := by
        have := hv.1; have := hv.2; simp [slots, hd] at *; omega
      rw [emptyLoop_named m block hd m.size 0 [] hl
        (by simpa [live, hd] using hw.2)]
      simp [live, hd]
  by_cases hm : m.maxSize > 0
  · obtain ⟨block, hd, hlen⟩ := data_of_lt hv hm
    refine ⟨{ m with data := some (List.replicate m.maxSize zeroItem ++ block.drop m.maxSize),
                     size := 0 }, ?_, rfl, rfl, ?_, ?_⟩
    · simp [xmlSecMapEmpty, hloop, hm, hd, memset, hlen]
    · simp [slots, ← hlen]
    · simp [hd]
  · refine ⟨{ m with size := 0 }, ?_, rfl, rfl, ?_, Iff.rfl⟩
    · simp [xmlSecMapEmpty, hloop, hm]
    · have h0 : m.maxSize = 0 := by omega
      have := hv.1
      rw [h0] at this ⊢
      simpa [slots] using this

theorem getName_live {m : xmlSecMap} {j : Nat} {it : xmlSecMapItem} (hv : Valid m)
    (hj : (live m)[j]? = some it) : xmlSecMapGetName m j = some it.name := by
  have hlt : j < m.size := by
    by_contra hc
    rw [List.getElem?_eq_none (by rw [live_length hv]; omega)] at hj
    cases hj
  obtain ⟨block, hd, hlen⟩ := data_of_lt hv (Nat.lt_of_lt_of_le hlt hv.2)
  rw [live_eq_take, List.getElem?_take_of_lt hlt, slots_of_data hd] at hj
  simp [xmlSecMapGetName, hlt, hd, hj]

theorem setAll_run :
    ∀ (kvs : List ((Nat → xmlSecMapItem) × List xmlChar × xmlSecObjPtr)) (w : World),
      WellFormed w.map → UniqueKeys w.map → (kvs.map (·.2.1)).Nodup →
      (∀ e ∈ kvs, ∀ it ∈ live w.map, it.name ≠ some e.2.1) →
      ∃ w1, run (setAll kvs) w = some w1 ∧ live w1.map = live w.map ++ kvs.map entryOf ∧
        WellFormed w1.map ∧ UniqueKeys w1.map ∧ w1.deleted = w.deleted
  | [], w, hw, hu, _, _ => ⟨w, rfl, by simp, hw, hu, rfl⟩
  | e :: rest, w, hw, hu, hnd, hfresh => by
    obtain ⟨o, hs, _, _, hlive, hv1, hdel⟩ :=
      set_new_some e.1 e.2.2 hw (hfresh e (List.mem_cons_self _ _))
    rw [List.map_cons, List.nodup_cons] at hnd
    have hw1 : WellFormed o.map := by
      refine ⟨hv1, ?_⟩
      intro it hit
      rw [hlive] at hit
      rcases List.mem_append.1 hit with h1 | h1
      · exact hw.2 it h1
      · simp at h1; rw [h1]; exact Option.some_ne_none _
    have hu1 : UniqueKeys o.map := by
      unfold UniqueKeys at hu ⊢
      rw [hlive, List.map_append]
      refine List.Nodup.append hu (by simp) ?_
      intro n hn1 hn2
      simp at hn2
      rw [List.mem_map] at hn1
      obtain ⟨it, hit, rfl⟩ := hn1
      exact hfresh e (List.mem_cons_self _ _) it hit hn2
    have hfresh1 : ∀ e1 ∈ rest, ∀ it ∈ live o.map, it.name ≠ some e1.2.1 := by
      intro e1 he1 it hit
      rw [hlive] at hit
      rcases List.mem_append.1 hit with h1 | h1
      · exact hfresh e1 (List.mem_cons_of_mem _ he1) it h1
      · simp at h1
        rw [h1]
        intro heq
        simp at heq
        exact hnd.1 (List.mem_map.2 ⟨e1, he1, heq.symm⟩)
    obtain ⟨w1, hr, hl1, hw2, hu2, hd2⟩ :=
      setAll_run rest
        { w with map := o.map, deleted := w.deleted ++ o.deleted,
                 taken := if o.ret = (0 : Int) then w.taken ++ e.2.2.toList else w.taken }
        hw1 hu1 hnd.2 hfresh1
    refine ⟨w1, ?_, ?_, hw2, hu2, ?_⟩
    · simp only [setAll, List.map_cons, run, step, hs, Option.map_some', Option.some_bind]
      exact hr
    · rw [hl1, hlive, List.append_assoc]
      rfl
    · rw [hd2, hdel, List.append_nil]

theorem map_ext {a b : xmlSecMap} (hd : a.data = b.data) (hs : a.size = b.size)
    (hm : a.maxSize = b.maxSize) : a = b := by
  cases a; cases b; simp only at hd hs hm; subst hd hs hm; rfl

theorem valid_size_zero_wf {m : xmlSecMap} (hv : Valid m) (h0 : m.size = 0) : WellFormed m := by
  refine ⟨hv, ?_⟩
  intro it hit
  simp [live, h0] at hit

theorem empty_size_zero_same {m m1 : xmlSecMap} (hv : Valid m) (h0 : m.size = 0)
    (hsz : m1.size = 0) (hmax : m1.maxSize = m.maxSize)
    (hsl : slots m1 = List.replicate m.maxSize zeroItem)
    (hdat : m1.data = none ↔ m.data = none) (hz : ∀ it ∈ slots m, it = zeroItem) : m1 = m := by
  have hslm : slots m = List.replicate m.maxSize zeroItem := by
    rw [← hv.1]
    exact List.eq_replicate_of_mem hz
  apply map_ext _ (by rw [hsz, h0]) hmax
  cases hd : m.data with
  | none => exact hdat.2 hd
  | some block =>
    cases hd1 : m1.data with
    | none => rw [hdat.1 hd1] at hd; cases hd
    | some block1 =>
      rw [slots_of_data hd] at hslm
      rw [slots_of_data hd1] at hsl
      rw [hsl, hslm]

theorem empty_size_zero {m : xmlSecMap} (hv : Valid m) (h0 : m.size = 0) :
    ∃ m1, xmlSecMapEmpty m = some (m1, []) ∧ m1.size = 0 ∧ m1.maxSize = m.maxSize ∧
      slots m1 = List.replicate m.maxSize zeroItem ∧
      ((∀ it ∈ slots m, it = zeroItem) ↔ m1 = m) := by
  obtain ⟨m1, he, hsz, hmax, hsl, hdat⟩ := empty_wf (valid_size_zero_wf hv h0)
  have hdel : (live m).filterMap (·.data) = [] := by simp [live, h0]
  rw [hdel] at he
  refine ⟨m1, he, hsz, hmax, hsl, ?_, ?_⟩
  · intro hz
    exact empty_size_zero_same hv h0 hsz hmax hsl hdat hz
  · intro e it hit
    rw [← e, hsl] at hit
    exact List.eq_of_mem_replicate hit

theorem empty_idempotent {m m1 : xmlSecMap} {del : List Nat} (hw : WellFormed m)
    (h : xmlSecMapEmpty m = some (m1, del)) : xmlSecMapEmpty m1 = some (m1, []) := by
  obtain ⟨m2, he, hsz, hmax, hsl, _⟩ := empty_wf hw
  rw [he, Option.some.injEq, Prod.mk.injEq] at h
  obtain ⟨rfl, _⟩ := h
  have hv2 : Valid m2 := ⟨by rw [hsl, List.length_replicate, hmax], by rw [hsz]; exact Nat.zero_le _⟩
  obtain ⟨m3, he3, _, _, _, hsame⟩ := empty_size_zero hv2 hsz
  rw [he3, hsame.1 (by rw [hsl]; intro it hit; exact List.eq_of_mem_replicate hit)]

theorem idxToInt_eq_neg_one {o : Option Nat} : idxToInt o = -1 ↔ o = none := by
  cases o with
  | none => simp [idxToInt]
  | some j => simp [idxToInt]

theorem idxToInt_ofNat_iff {o : Option Nat} {i : Nat} : idxToInt o = Int.ofNat i ↔ o = some i :=
  ⟨idxToInt_eq_ofNat, fun h => by rw [h]; rfl⟩

theorem reallocate_live (g : Nat → xmlSecMapItem) (m : xmlSecMap) (delta : Nat)
    (h : m.size ≤ (slots m).length) : live (xmlSecMapReallocate (some g) m delta).2 = live m := by
  unfold xmlSecMapReallocate
  by_cases hc : m.size + delta < m.maxSize
  · rw [if_pos hc]
  · rw [if_neg hc]
    show List.take m.size (List.take _ (m.data.getD []) ++ _) = List.take m.size (m.data.getD [])
    simp only [slots] at h
    rw [List.take_append_of_le_length (by rw [List.length_take]; omega), List.take_take,
      Nat.min_eq_left (by omega)]

theorem reallocate_spare (fresh : Option (Nat → xmlSecMapItem)) (m : xmlSecMap) (delta : Nat)
    (h : (xmlSecMapReallocate fresh m delta).1 = 0) :
    (xmlSecMapReallocate fresh m delta).2.size = m.size ∧
    m.size + delta < (xmlSecMapReallocate fresh m delta).2.maxSize := by
  unfold xmlSecMapReallocate at h ⊢
  by_cases hc : m.size + delta < m.maxSize
  · rw [if_pos hc]; exact ⟨rfl, hc⟩
  · rw [if_neg hc] at h ⊢
    cases fresh with
    | none => simp [xmlRealloc] at h
    | some g =>
      refine ⟨rfl, ?_⟩
      show m.size + delta < 4 * (m.size + delta) / 3 + 1
      omega

theorem remove_defined {m : xmlSecMap} (hc : Cap m) (name : xmlCharPtr) :
    ∃ r, xmlSecMapRemove m name = some r := by
  have hv := cap_valid hc
  cases name with
  | none => exact ⟨_, rfl⟩
  | some k =>
    cases hf : firstIdx k ((live m).map (·.name)) with
    | none => exact ⟨_, remove_notfound hv hf⟩
    | some j =>
      have hj : j < m.size := by
        have := firstIdx_lt hf; rw [List.length_map, live_length hv] at this; exact this
      have hsp : m.size < m.maxSize := by
        rcases hc.2 with h1 | ⟨h1, _⟩ <;> omega
      obtain ⟨m2, item, _, hr, _⟩ := remove_found hv hsp hf
      exact ⟨_, hr⟩

theorem dupLoop_eq (objDup : xmlSecObjPtr → xmlSecObjPtr) (sb : List xmlSecMapItem) :
    ∀ n i (dst : List xmlSecMapItem), i + n ≤ sb.length → i + n ≤ dst.length →
      xmlSecMapDuplicator.loop (fun _ => true) objDup (some sb) n i dst
        = some (dst.take i
            ++ ((sb.drop i).take n).map (fun it => ⟨it.name, objDup it.data⟩)
            ++ dst.drop (i + n)) := by
  intro n
  induction n with
  | zero =>
    intro i dst _ _
    simp [xmlSecMapDuplicator.loop]
  | succ n ih =>
    intro i dst hs hd
    have hlt : i < sb.length := by omega
    have hltd : i < dst.length := by omega
    have hdrop : sb.drop i = sb[i] :: sb.drop (i + 1) := List.drop_eq_getElem_cons hlt
    simp only [xmlSecMapDuplicator.loop, List.getElem?_eq_getElem hlt]
    rw [if_pos hltd, ih (i + 1) _ (by omega) (by rw [List.length_set]; omega),
      take_set_succ _ _ _ hltd, List.drop_set_of_lt _ _ (by omega), hdrop, List.take_succ_cons,
      List.map_cons]
    simp only [xmlStrdup, if_true, List.append_assoc, List.singleton_append]
    have : i + 1 + n = i + (n + 1) := by omega
    rw [this]

/-- Copying with every key copy succeeding: for a valid source and a
well-formed destination, a copy that returns 0 leaves in the destination as
many live entries as the source has, each with the key of the source entry and
the duplicate of its value, and has destroyed the destination's old values. -/
theorem duplicator_of_copy (fresh : Option (Nat → xmlSecMapItem))
    (objDup : xmlSecObjPtr → xmlSecObjPtr) {dst src : xmlSecMap} {o : Outcome}
    (hd : WellFormed dst) (hs : Valid src)
    (h : xmlSecMapDuplicator fresh (fun _ => true) objDup dst src = some o) (hret : o.ret = 0) :
    o.map.size = src.size ∧
    live o.map = (live src).map (fun it => ⟨it.name, objDup it.data⟩) ∧
    o.deleted = (live dst).filterMap (·.data) := by
  obtain ⟨d0, he, hsz, hmax, hsl, _⟩ := empty_wf hd
  have hv0 : Valid d0 := ⟨by rw [hsl, List.length_replicate, hmax], by rw [hsz]; exact Nat.zero_le _⟩
  unfold xmlSecMapDuplicator at h
  rw [he] at h
  simp only at h
  rcases reallocate_cases fresh d0 src.size hv0 with
    ⟨h1, _⟩ | ⟨h1, block, hdat, hlen, _, hlt, _⟩
  · rw [if_pos (by rw [h1]; decide), Option.some.injEq] at h
    subst h
    simp at hret
  · rw [if_neg (by rw [h1]; decide), hdat] at h
    simp only at h
    rw [if_pos (by omega)] at h
    by_cases h0 : src.size = 0
    · rw [h0] at h
      simp only [xmlSecMapDuplicator.loop, Option.some.injEq] at h
      subst h
      refine ⟨h0.symm, ?_, rfl⟩
      simp [live, h0]
    · have hpos : 0 < src.maxSize := by have := hs.2; omega
      obtain ⟨sb, hsd, hslen⟩ := data_of_lt hs hpos
      rw [hsd, dupLoop_eq objDup sb src.size 0 block (by have := hs.2; omega) (by omega),
        Option.some.injEq] at h
      subst h
      refine ⟨rfl, ?_, rfl⟩
      simp only [live, Option.getD_some, hsd, List.take_zero, List.nil_append, List.drop_zero,
        Nat.zero_add]
      have hsl2 : src.size ≤ sb.length := by have := hs.2; omega
      rw [List.take_append_of_le_length (by rw [List.length_map, List.length_take]; omega),
        List.take_of_length_le (by rw [List.length_map, List.length_take]; omega)]

/-- Remove-then-get with every key copy succeeding: on every map reached by
`xmlSecMapSet`, `xmlSecMapRemove` and `xmlSecMapEmpty` calls whose key copies
all succeed, removing a key that has a live entry takes exactly one entry out,
and afterwards the lookup of the key finds no entry and get returns no
value. -/
theorem remove_get_of_copy (calls : List Call) (w : World) (k : List xmlChar)
    (hb : ∀ c ∈ calls, c.isBasic = true ∧ c.copyOk = true)
    (hr : run calls World.init = some w) (hk : ∃ it ∈ live w.map, it.name = some k) :
    ∃ m1 del, xmlSecMapRemove w.map (some k) = some (m1, del) ∧ m1.size + 1 = w.map.size ∧
      xmlSecMapFindItem m1 (some k) = some (-1) ∧ xmlSecMapGet m1 (some k) = some none := by
  have hi : Inv w.map := inv_run calls World.init w (fun c hc => (hb c hc).1) inv_init hr
  obtain ⟨hw, hu, _⟩ := wellFormed_run_of_copy calls World.init w hb inv_init
    (by intro n hn; simp [World.init, live, xmlSecMapConstructor] at hn) hr
  have hv := hw.1
  obtain ⟨it, hit, hname⟩ := hk
  obtain ⟨j, hj⟩ := List.mem_iff_getElem?.1 hit
  have hf : firstIdx k ((live w.map).map (·.name)) = some j := by
    apply firstIdx_of_unique k _ j (names_forall hw.2) hu
    rw [List.getElem?_map, hj]; simp [hname]
  have hlt : j < w.map.size := by
    have := firstIdx_lt hf; rw [List.length_map, live_length hv] at this; exact this
  have hsp : w.map.size < w.map.maxSize := by
    rcases hi.2.1 with h1 | ⟨h1, _⟩ <;> omega
  obtain ⟨m1, item, _, hrm, hsz, _, _, hlive, _⟩ := remove_found hv hsp hf
  have hi1 : Inv m1 := inv_remove (some k) hi hrm
  have hnone : firstIdx k ((live m1).map (·.name)) = none := by
    rw [firstIdx_none_iff, hlive, map_eraseIdx_name]
    exact (seen_eraseIdx_nodup k _ j hf hi.2.2).2
  refine ⟨m1, _, hrm, hsz, ?_, get_notfound (inv_valid hi1) hnone⟩
  rw [findItem_eq m1 k (inv_valid hi1), hnone]; rfl

end XmlSec

/-! ## The claims on growth, copying, emptying, destruction and lookup -/

namespace XmlSec

/-- C11: for every list of insertions with pairwise distinct keys, calling
`xmlSecMapSet` for them in order on the constructed map, every allocation
succeeding, is defined and yields a map whose size is the number of
insertions, whose entry at index `j` is the `j`-th inserted key with its value
(also through `xmlSecMapGetName`), and in which `xmlSecMapGet` of the `j`-th
key returns the `j`-th value; no value is destroyed. -/
theorem xmlSecMapSet_growth_correct
    (kvs : List ((Nat → xmlSecMapItem) × List xmlChar × xmlSecObjPtr))
    (hk : (kvs.map (·.2.1)).Nodup) :
    ∃ w, run (setAll kvs) World.init = some w ∧ w.map.size = kvs.length ∧ w.deleted = [] ∧
      ∀ j e, kvs[j]? = some e →
        (live w.map)[j]? = some (entryOf e) ∧
        xmlSecMapGetName w.map j = some (some e.2.1) ∧
        xmlSecMapGet w.map (some e.2.1) = some e.2.2 := by
  have hw0 : WellFormed World.init.map := by decide
  have hu0 : UniqueKeys World.init.map := by decide
  obtain ⟨w, hr, hlive, hw, hu, hd⟩ := setAll_run kvs World.init hw0 hu0 hk
    (fun _ _ it hit => by simp [World.init, live, xmlSecMapConstructor] at hit)
  have hlive1 : live w.map = kvs.map entryOf := by
    rw [hlive]; simp [World.init, live, xmlSecMapConstructor]
  refine ⟨w, hr, ?_, ?_, ?_⟩
  · rw [← live_length hw.1, hlive1, List.length_map]
  · rw [hd]; rfl
  · intro j e he
    have hj : (live w.map)[j]? = some (entryOf e) := by
      rw [hlive1, List.getElem?_map, he]; rfl
    exact ⟨hj, getName_live hw.1 hj, get_of_live hw hu hj rfl⟩

/-- C11 (witness): four insertions, which cross three growth boundaries. -/
theorem xmlSecMapSet_growth_correct_witness :
    (kvs4.map (·.2.1)).Nodup ∧
    ∃ w, run (setAll kvs4) World.init = some w ∧ w.map.size = kvs4.length ∧ w.deleted = [] ∧
      ∀ j e, kvs4[j]? = some e →
        (live w.map)[j]? = some (entryOf e) ∧
        xmlSecMapGetName w.map j = some (some e.2.1) ∧
        xmlSecMapGet w.map (some e.2.1) = some e.2.2 :=
  ⟨by decide, xmlSecMapSet_growth_correct kvs4 (by decide)⟩

/-- C12: every map reached from the constructed map by a finite sequence of
set, remove, empty, duplicate and destroy calls, whatever the allocator does in
each of them and whatever the source of a copy is, satisfies
`0 ≤ size ≤ maxSize`. -/
theorem xmlSecMap_size_le_maxSize (calls : List Call) (w : World)
    (hr : run calls World.init = some w) : 0 ≤ w.map.size ∧ w.map.size ≤ w.map.maxSize :=
  ⟨Nat.zero_le _, (cap_valid (cap_run calls World.init w cap_init hr)).2⟩

/-- C12 (witness): a sequence with every kind of call and a failing
allocation. -/
theorem xmlSecMap_size_le_maxSize_witness :
    run callsMixed World.init = some worldMixed ∧
    (0 ≤ worldMixed.map.size ∧ worldMixed.map.size ≤ worldMixed.map.maxSize) :=
  ⟨by decide, xmlSecMap_size_le_maxSize callsMixed worldMixed (by decide)⟩

/-- C13 (failing input): copying the well-formed map `mapAB` (keys "a", "b")
into a constructed map, the block allocation succeeding and the copy
`xmlStrdup` of the second key failing, returns 0 with size 2, but the key of
the destination at index 1 is `NULL`, not a key equal to "b". -/
theorem xmlSecMapDuplicator_key_copy_failure :
    WellFormed mapAB ∧
    xmlSecMapDuplicator zeroFill (fun i => decide (i = 0)) dupPlus10 xmlSecMapConstructor mapAB
      = some ⟨0, { data := some [⟨some keyA, some 11⟩, ⟨none, some 12⟩, zeroItem],
                   size := 2, maxSize := 3 }, []⟩ ∧
    xmlSecMapGetName mapAB 1 = some (some keyB) := by
  decide

/-- C14 (counterexample): the destination `nullKeyMap`, which `xmlSecMapSet`
produces when a key copy fails, holds a live entry with a `NULL` key. Copying
`mapAB` into it with a failing block allocation returns `-1`, but the
destination still has size 1 and its entry has not been destroyed:
`xmlSecMapEmpty` returned at its assertion. -/
theorem xmlSecMapDuplicator_failure_nonempty :
    (xmlSecMapSet zeroFill false xmlSecMapConstructor (some keyA) (some 1)).map (·.map)
      = some nullKeyMap ∧
    xmlSecMapDuplicator none (fun _ => true) dupPlus10 nullKeyMap mapAB
      = some ⟨-1, nullKeyMap, []⟩ ∧
    nullKeyMap.size = 1 := by
  decide

/-- C14 (amended): for every source map and every well-formed destination
map, when the reservation for `src.size` entries is needed
(`dst.maxSize ≤ src.size`) and the allocator fails, `xmlSecMapDuplicator`
returns `-1`; the destination then has size 0, its capacity, every slot zeroed,
and exactly the non-null values of its previous live entries have been
destroyed. The source is only read. -/
theorem xmlSecMapDuplicator_failure_empties (dupOk : Nat → Bool)
    (objDup : xmlSecObjPtr → xmlSecObjPtr) (dst src : xmlSecMap)
    (hw : WellFormed dst) (hneed : dst.maxSize ≤ src.size) :
    ∃ d0, xmlSecMapDuplicator none dupOk objDup dst src
        = some ⟨-1, d0, (live dst).filterMap (·.data)⟩ ∧
      d0.size = 0 ∧ d0.maxSize = dst.maxSize ∧
      slots d0 = List.replicate dst.maxSize zeroItem := by
  obtain ⟨d0, he, hsz, hmax, hsl, _⟩ := empty_wf hw
  refine ⟨d0, ?_, hsz, hmax, hsl⟩
  have hr : xmlSecMapReallocate none d0 src.size = (-1, d0) := by
    unfold xmlSecMapReallocate
    rw [if_neg (by rw [hsz, hmax]; omega)]
    rfl
  simp [xmlSecMapDuplicator, he, hr]

/-- C14 (witness): copying the map holding "a", "b", "c" into `mapAB`, whose
three slots do not suffice, with a failing allocator. -/
theorem xmlSecMapDuplicator_failure_empties_witness :
    WellFormed mapAB ∧ mapAB.maxSize ≤ worldABC.map.size ∧
    ∃ d0, xmlSecMapDuplicator none (fun _ => true) dupPlus10 mapAB worldABC.map
        = some ⟨-1, d0, (live mapAB).filterMap (·.data)⟩ ∧
      d0.size = 0 ∧ d0.maxSize = mapAB.maxSize ∧
      slots d0 = List.replicate mapAB.maxSize zeroItem :=
  ⟨by decide, by decide,
    xmlSecMapDuplicator_failure_empties (fun _ => true) dupPlus10 mapAB worldABC.map
      (by decide) (by decide)⟩

/-- C15: for every well-formed map, `xmlSecMapEmpty` is defined and leaves
size 0 and the capacity unchanged, every slot of the block (`maxSize` of them)
has a `NULL` key and a `NULL` value, and the values destroyed are exactly the
non-null values of the previously live entries, in order. -/
theorem xmlSecMapEmpty_postcondition (m : xmlSecMap) (hw : WellFormed m) :
    ∃ m1, xmlSecMapEmpty m = some (m1, (live m).filterMap (·.data)) ∧
      m1.size = 0 ∧ m1.maxSize = m.maxSize ∧ (slots m1).length = m.maxSize ∧
      ∀ it ∈ slots m1, it.name = none ∧ it.data = none := by
  obtain ⟨m1, he, hsz, hmax, hsl, _⟩ := empty_wf hw
  refine ⟨m1, he, hsz, hmax, by rw [hsl, List.length_replicate], ?_⟩
  intro it hit
  rw [hsl] at hit
  rw [List.eq_of_mem_replicate hit]
  exact ⟨rfl, rfl⟩

/-- C15 (witness): emptying the map holding "a", "b", "c". -/
theorem xmlSecMapEmpty_postcondition_witness :
    WellFormed worldABC.map ∧
    ∃ m1, xmlSecMapEmpty worldABC.map = some (m1, (live worldABC.map).filterMap (·.data)) ∧
      m1.size = 0 ∧ m1.maxSize = worldABC.map.maxSize ∧
      (slots m1).length = worldABC.map.maxSize ∧
      ∀ it ∈ slots m1, it.name = none ∧ it.data = none :=
  ⟨by decide, xmlSecMapEmpty_postcondition worldABC.map (by decide)⟩

/-- C16 (counterexample): `set a=1; remove a` on the constructed map reaches
`staleMap`, whose size is 0; `xmlSecMapEmpty` on it zeroes slot 0, so the map
state changes. The same happens to the size-0 map a copy of an empty source
leaves when the allocator hands out a block with non-zero contents. -/
theorem xmlSecMapEmpty_changes_empty_map :
    (run [.set zeroFill true (some keyA) (some 1), .remove (some keyA)] World.init).map (·.map)
      = some staleMap ∧
    staleMap.size = 0 ∧
    xmlSecMapEmpty staleMap
      = some ({ data := some [zeroItem, zeroItem], size := 0, maxSize := 2 }, []) ∧
    ({ data := some [zeroItem, zeroItem], size := 0, maxSize := 2 } : xmlSecMap) ≠ staleMap ∧
    xmlSecMapDuplicator junkFill (fun _ => true) dupPlus10 xmlSecMapConstructor
        xmlSecMapConstructor
      = some ⟨0, { data := some [⟨some [0], some 0⟩], size := 0, maxSize := 1 }, []⟩ ∧
    xmlSecMapEmpty { data := some [⟨some [0], some 0⟩], size := 0, maxSize := 1 }
      = some ({ data := some [zeroItem], size := 0, maxSize := 1 }, []) := by
  decide

/-- C16 (amended): for every map whose size is already 0, `xmlSecMapEmpty`
destroys nothing, leaves size 0 and the capacity unchanged and leaves every
slot of the block zeroed; the map state is unchanged exactly when every slot
was already zero, and a second call changes nothing. For every well-formed map,
emptying the emptied map changes nothing and destroys nothing. -/
theorem xmlSecMapEmpty_on_empty (m : xmlSecMap) (hv : Valid m) (h0 : m.size = 0) :
    (∃ m1, xmlSecMapEmpty m = some (m1, []) ∧ m1.size = 0 ∧ m1.maxSize = m.maxSize ∧
      slots m1 = List.replicate m.maxSize zeroItem ∧
      ((∀ it ∈ slots m, it = zeroItem) ↔ m1 = m) ∧
      xmlSecMapEmpty m1 = some (m1, [])) ∧
    (∀ m2 m3 del, WellFormed m2 → xmlSecMapEmpty m2 = some (m3, del) →
      xmlSecMapEmpty m3 = some (m3, [])) := by
  obtain ⟨m1, he, hsz, hmax, hsl, hsame⟩ := empty_size_zero hv h0
  exact ⟨⟨m1, he, hsz, hmax, hsl, hsame, empty_idempotent (valid_size_zero_wf hv h0) he⟩,
    fun _ _ _ hw h => empty_idempotent hw h⟩

/-- C16 (witness): the map `staleMap`. -/
theorem xmlSecMapEmpty_on_empty_witness :
    Valid staleMap ∧ staleMap.size = 0 ∧
    (∃ m1, xmlSecMapEmpty staleMap = some (m1, []) ∧ m1.size = 0 ∧
      m1.maxSize = staleMap.maxSize ∧
      slots m1 = List.replicate staleMap.maxSize zeroItem ∧
      ((∀ it ∈ slots staleMap, it = zeroItem) ↔ m1 = staleMap) ∧
      xmlSecMapEmpty m1 = some (m1, [])) ∧
    (∀ m2 m3 del, WellFormed m2 → xmlSecMapEmpty m2 = some (m3, del) →
      xmlSecMapEmpty m3 = some (m3, [])) :=
  ⟨by decide, by decide, xmlSecMapEmpty_on_empty staleMap (by decide) (by decide)⟩

/-- C17: for every well-formed map, `xmlSecMapDestructor` is defined, destroys
the non-null values of the live entries and leaves the constructed state (no
block, size 0, capacity 0); on the constructed map it changes nothing and
destroys nothing; and a second destructor call changes nothing. -/
theorem xmlSecMapDestructor_postcondition (m : xmlSecMap) (hw : WellFormed m) :
    xmlSecMapDestructor m = some (xmlSecMapConstructor, (live m).filterMap (·.data)) ∧
    xmlSecMapDestructor xmlSecMapConstructor = some (xmlSecMapConstructor, []) ∧
    (∀ m1 del, xmlSecMapDestructor m = some (m1, del) →
      xmlSecMapDestructor m1 = some (m1, [])) := by
  obtain ⟨m1, he, _⟩ := empty_wf hw
  have h1 : xmlSecMapDestructor m
      = some (xmlSecMapConstructor, (live m).filterMap (·.data)) := by
    simp [xmlSecMapDestructor, he, xmlSecMapConstructor]
  have h2 : xmlSecMapDestructor xmlSecMapConstructor = some (xmlSecMapConstructor, []) := by
    decide
  refine ⟨h1, h2, ?_⟩
  intro m2 del h
  rw [h1, Option.some.injEq, Prod.mk.injEq] at h
  rw [← h.1]; exact h2

/-- C17 (witness): destroying the map holding "a", "b", "c". -/
theorem xmlSecMapDestructor_postcondition_witness :
    WellFormed worldABC.map ∧
    xmlSecMapDestructor worldABC.map
      = some (xmlSecMapConstructor, (live worldABC.map).filterMap (·.data)) ∧
    xmlSecMapDestructor xmlSecMapConstructor = some (xmlSecMapConstructor, []) ∧
    (∀ m1 del, xmlSecMapDestructor worldABC.map = some (m1, del) →
      xmlSecMapDestructor m1 = some (m1, [])) :=
  ⟨by decide, xmlSecMapDestructor_postcondition worldABC.map (by decide)⟩

/-- C18: for every well-formed map and every key `k`, `xmlSecMapFindItem`
returns the index `i` if and only if `i < size`, the key at index `i` equals
`k` byte for byte and no smaller index has a key equal to `k`; it returns `-1`
if and only if no live entry's key equals `k`; and it returns nothing else. -/
theorem xmlSecMapFindItem_first_match (m : xmlSecMap) (k : List xmlChar)
    (hw : WellFormed m) :
    (∀ i : Nat, xmlSecMapFindItem m (some k) = some (Int.ofNat i) ↔
      (i < m.size ∧ (live m)[i]?.map (·.name) = some (some k) ∧
        ∀ j, j < i → (live m)[j]?.map (·.name) ≠ some (some k))) ∧
    (xmlSecMapFindItem m (some k) = some (-1) ↔ ∀ it ∈ live m, it.name ≠ some k) ∧
    (xmlSecMapFindItem m (some k) = some (-1) ∨
      ∃ i : Nat, xmlSecMapFindItem m (some k) = some (Int.ofNat i)) := by
  have hv := hw.1
  have hnamed : ∀ n ∈ (live m).map (·.name), n ≠ none := names_forall hw.2
  rw [findItem_eq m k hv]
  refine ⟨?_, ?_, ?_⟩
  · intro i
    rw [Option.some.injEq, idxToInt_ofNat_iff]
    constructor
    · intro hf
      have hlt : i < m.size := by
        have := firstIdx_lt hf; rw [List.length_map, live_length hv] at this; exact this
      obtain ⟨h1, h2⟩ := firstIdx_some k _ i hf
      rw [List.getElem?_map] at h1
      refine ⟨hlt, h1, ?_⟩
      intro j hj e
      obtain ⟨s, hs, hne⟩ := h2 j hj
      rw [List.getElem?_map, e] at hs
      exact hne (Option.some.inj (Option.some.inj hs)).symm
    · rintro ⟨_, h1, h2⟩
      apply firstIdx_of_first k _ i hnamed
      · rw [List.getElem?_map]; exact h1
      · intro j hj
        rw [List.getElem?_map]; exact h2 j hj
  · rw [Option.some.injEq, idxToInt_eq_neg_one, firstIdx_none_iff, mem_seen_iff _ _ hnamed,
      List.mem_map]
    constructor
    · intro h it hit e
      exact h ⟨it, hit, e⟩
    · rintro h ⟨it, hit, e⟩
      exact h it hit e
  · cases firstIdx k ((live m).map (·.name)) with
    | none => exact Or.inl rfl
    | some i => exact Or.inr ⟨i, rfl⟩

/-- C18 (witness): in the map holding "a", "b", "c" the key "b" is found at
index 1. -/
theorem xmlSecMapFindItem_first_match_witness :
    WellFormed worldABC.map ∧
    (∀ i : Nat, xmlSecMapFindItem worldABC.map (some keyB) = some (Int.ofNat i) ↔
      (i < worldABC.map.size ∧ (live worldABC.map)[i]?.map (·.name) = some (some keyB) ∧
        ∀ j, j < i → (live worldABC.map)[j]?.map (·.name) ≠ some (some keyB))) ∧
    (xmlSecMapFindItem worldABC.map (some keyB) = some (-1) ↔
      ∀ it ∈ live worldABC.map, it.name ≠ some keyB) ∧
    (xmlSecMapFindItem worldABC.map (some keyB) = some (-1) ∨
      ∃ i : Nat, xmlSecMapFindItem worldABC.map (some keyB) = some (Int.ofNat i)) :=
  ⟨by decide, xmlSecMapFindItem_first_match worldABC.map keyB (by decide)⟩

/-- C19: for every map and every `delta`, `xmlSecMapReallocate` with a
succeeding allocator returns 0; when `size + delta < maxSize` the map is left
as it is (capacity unchanged); otherwise, also when `size + delta = maxSize`,
the capacity becomes `4 * (size + delta) / 3 + 1`; in both cases `size` is
unchanged, and the live entries, with their order, are unchanged whenever they
lie inside the block. -/
theorem xmlSecMapReallocate_growth_policy (g : Nat → xmlSecMapItem) (m : xmlSecMap)
    (delta : Nat) :
    (xmlSecMapReallocate (some g) m delta).1 = 0 ∧
    (m.size + delta < m.maxSize → (xmlSecMapReallocate (some g) m delta).2 = m) ∧
    (m.size + delta < m.maxSize →
      (xmlSecMapReallocate (some g) m delta).2.maxSize = m.maxSize) ∧
    (¬ m.size + delta < m.maxSize →
      (xmlSecMapReallocate (some g) m delta).2.maxSize = 4 * (m.size + delta) / 3 + 1) ∧
    (xmlSecMapReallocate (some g) m delta).2.size = m.size ∧
    (m.size ≤ (slots m).length → live (xmlSecMapReallocate (some g) m delta).2 = live m) := by
  refine ⟨reallocate_some g m delta, ?_, ?_, ?_,
    (reallocate_spare (some g) m delta (reallocate_some g m delta)).1, reallocate_live g m delta⟩
  · intro hc
    unfold xmlSecMapReallocate
    rw [if_pos hc]
  · intro hc
    unfold xmlSecMapReallocate
    rw [if_pos hc]
  · intro hc
    unfold xmlSecMapReallocate
    rw [if_neg hc]
    rfl

/-- C20: after every successful `xmlSecMapReallocate` the capacity is strictly
greater than `size + delta`, so the assertion `maxSize >= size + 1` of
`xmlSecMapSet` holds after a successful growth by 1; every map reached from the
constructed map by set, remove, empty and duplicate calls has `size < maxSize`
whenever `maxSize > 0`; on such a map `xmlSecMapRemove` is always defined, and
when the key is found the slot index `size` it writes is inside the block. -/
theorem xmlSecMap_spare_slot (calls : List Call) (w : World)
    (_hm : ∀ c ∈ calls, c.isMutator = true) (hr : run calls World.init = some w) :
    (∀ fresh m delta, (xmlSecMapReallocate fresh m delta).1 = 0 →
      (xmlSecMapReallocate fresh m delta).2.size + delta
        < (xmlSecMapReallocate fresh m delta).2.maxSize) ∧
    (∀ fresh m, (xmlSecMapReallocate fresh m 1).1 = 0 →
      (xmlSecMapReallocate fresh m 1).2.maxSize ≥ (xmlSecMapReallocate fresh m 1).2.size + 1) ∧
    (0 < w.map.maxSize → w.map.size < w.map.maxSize) ∧
    (∀ name, ∃ r, xmlSecMapRemove w.map name = some r) ∧
    (∀ k (i : Nat), xmlSecMapFindItem w.map (some k) = some (Int.ofNat i) →
      w.map.size < w.map.maxSize ∧ w.map.size < (slots w.map).length) := by
  have hc : Cap w.map := cap_run calls World.init w cap_init hr
  have hv := cap_valid hc
  refine ⟨?_, ?_, ?_, remove_defined hc, ?_⟩
  · intro fresh m delta h
    obtain ⟨h1, h2⟩ := reallocate_spare fresh m delta h
    rw [h1]; exact h2
  · intro fresh m h
    obtain ⟨h1, h2⟩ := reallocate_spare fresh m 1 h
    rw [h1]; exact Nat.le_of_lt h2
  · intro hpos
    rcases hc.2 with h1 | ⟨_, h1⟩ <;> omega
  · intro k i hf
    rw [findItem_eq w.map k hv, Option.some.injEq, idxToInt_ofNat_iff] at hf
    have hj : i < w.map.size := by
      have := firstIdx_lt hf; rw [List.length_map, live_length hv] at this; exact this
    have hsp : w.map.size < w.map.maxSize := by
      rcases hc.2 with h1 | ⟨h1, _⟩ <;> omega
    exact ⟨hsp, by rw [hc.1]; exact hsp⟩

/-- C20 (witness): a sequence of insertions, a removal and a copy. -/
theorem xmlSecMap_spare_slot_witness :
    (∀ c ∈ callsMutators, c.isMutator = true) ∧
    run callsMutators World.init = some worldMutators ∧
    (∀ fresh m delta, (xmlSecMapReallocate fresh m delta).1 = 0 →
      (xmlSecMapReallocate fresh m delta).2.size + delta
        < (xmlSecMapReallocate fresh m delta).2.maxSize) ∧
    (∀ fresh m, (xmlSecMapReallocate fresh m 1).1 = 0 →
      (xmlSecMapReallocate fresh m 1).2.maxSize ≥ (xmlSecMapReallocate fresh m 1).2.size + 1) ∧
    (0 < worldMutators.map.maxSize → worldMutators.map.size < worldMutators.map.maxSize) ∧
    (∀ name, ∃ r, xmlSecMapRemove worldMutators.map name = some r) ∧
    (∀ k (i : Nat), xmlSecMapFindItem worldMutators.map (some k) = some (Int.ofNat i) →
      worldMutators.map.size < worldMutators.map.maxSize ∧
      worldMutators.map.size < (slots worldMutators.map).length) :=
  ⟨by decide, by decide,
    xmlSecMap_spare_slot callsMutators worldMutators (by decide) (by decide)⟩

/-- Exact comparison: in the map holding "a", "b", "c" the key "A" is not
found, the key "a" is found at index 0, and `xmlStrEqual` tells "a" from "A". -/
theorem scenario_exact_comparison :
    xmlSecMapFindItem worldABC.map (some [65]) = some (-1) ∧
    xmlSecMapFindItem worldABC.map (some keyA) = some 0 ∧
    xmlStrEqual (some keyA) (some [65]) = false := by
  decide

end XmlSec
